import Mathlib

/-
Verification development for the libROM incremental SVD core and its
basis writer.

The repository's src/ directory contains only the declarations of the
incremental SVD classes (IncrementalSVDNaive.h and the incremental_svd
header); the bodies of increment, buildInitialSVD, buildIncrementalSVD,
addRedundantIncrement and addNewIncrement are not under src/.  Those
operations are therefore modelled from the specification (spec.md,
section 4.2), faithfully to its words, over an arbitrary linearly
ordered field.  The dense SVD of the small augmented matrix and the
square roots produced by the norm computations are not algorithms of
this repository (they are LAPACK calls), so each increment carries the
numerical results it consumed, together with validity predicates that
state exactly the contract the spec assigns to them.

The BasisWriter part (constructor and writeBasis) is translated from
the source in src/ directly.

Matrices are stored column-major: a d-by-r matrix is a list of r
columns, each a list of d entries.
-/

namespace CAROM

/-- Dot product of two vectors (trailing entries of the longer one are ignored). -/
def dot {K : Type} [Field K] (xs ys : List K) : K :=
  (List.zipWith (· * ·) xs ys).sum

/-- Sum of squares of a vector. -/
def sumSq {K : Type} [Field K] (xs : List K) : K :=
  dot xs xs

/-- Componentwise sum of two vectors of equal length. -/
def vadd {K : Type} [Field K] (xs ys : List K) : List K :=
  List.zipWith (· + ·) xs ys

/-- Componentwise difference of two vectors of equal length. -/
def vsub {K : Type} [Field K] (xs ys : List K) : List K :=
  List.zipWith (· - ·) xs ys

/-- Scalar multiple of a vector. -/
def smul {K : Type} [Field K] (a : K) (xs : List K) : List K :=
  xs.map (fun x => a * x)

/-- Zero vector of the given length. -/
def zeros {K : Type} [Field K] (n : Nat) : List K :=
  List.replicate n 0

/-- Vector sum where an empty operand acts as a neutral element; used to
fold the columns of a matrix-vector product. -/
def vaddP {K : Type} [Field K] : List K → List K → List K
  | [], ys => ys
  | x :: xs, [] => x :: xs
  | x :: xs, y :: ys => (x + y) :: vaddP xs ys

/-- Matrix times vector, the matrix given by its columns: the linear
combination of the columns weighted by the vector entries. -/
def matVec {K : Type} [Field K] (M : List (List K)) (v : List K) : List K :=
  (List.zipWith smul v M).foldr vaddP []

/-- Transposed matrix times vector: the vector of dot products of the
columns with v. -/
def matTvec {K : Type} [Field K] (M : List (List K)) (v : List K) : List K :=
  M.map (fun c => dot c v)

/-- Matrix product, both matrices column-major: each column of the
result is M applied to the corresponding column of N. -/
def matMul {K : Type} [Field K] (M N : List (List K)) : List (List K) :=
  N.map (fun c => matVec M c)

/-- Vector with a single possibly nonzero entry x at index i, length m. -/
def oneHot {K : Type} [Field K] (m i : Nat) (x : K) : List K :=
  zeros i ++ [x] ++ zeros (m - i - 1)

/-- Identity matrix of size n, column-major. -/
def idMat {K : Type} [Field K] (n : Nat) : List (List K) :=
  (List.range n).map (fun i => oneHot n i 1)

/-- Diagonal matrix with the given diagonal, column-major. -/
def diagM {K : Type} [Field K] (S : List K) : List (List K) :=
  (List.range S.length).map (fun i => oneHot S.length i (S.getD i 0))

/-- Gram matrix of the columns of B: entry (i, j) is the dot product of
columns i and j.  It equals the transpose of B times B, so columns of B
are orthonormal exactly when the Gram matrix is the identity. -/
def gram {K : Type} [Field K] (B : List (List K)) : List (List K) :=
  B.map (fun cj => B.map (fun ci => dot ci cj))

/-- Number of rows of a column-major matrix (length of its first column). -/
def nRows {K : Type} [Field K] (M : List (List K)) : Nat :=
  (M.headD []).length

/-- The current factorization of one time interval: the distributed left
basis U (d-by-r), the singular values Sigma (length r, the diagonal of
the small replicated matrix), and the replicated right basis V (n-by-r). -/
structure Fact (K : Type) [Field K] where
  U : List (List K)
  Sigma : List K
  V : List (List K)
deriving DecidableEq

/-- Numerical results consumed by one increment: the norm used on the
initial path, the residual norm norm_j after the Gram-Schmidt correction
pass, and the dense SVD triple (A, S, B) of the augmented matrix Q.
Modelled from the spec: the dense SVD kernel and the square roots are
external to this repository, so each call records the values it used;
validity predicates below state the contract the spec gives them. -/
structure Numerics (K : Type) [Field K] where
  nrm : K
  nj : K
  A : List (List K)
  S : List K
  B : List (List K)
deriving DecidableEq

/-- One snapshot handed to take_sample/increment, with the numerical
results consumed while absorbing it. -/
structure Sample (K : Type) [Field K] where
  u : List K
  nm : Numerics K
deriving DecidableEq

/-- Configuration of the incremental SVD: the redundancy tolerance
epsilon and the skip_redundant flag. -/
structure Config (K : Type) [Field K] where
  eps : K
  skipRedundant : Bool
deriving DecidableEq

/-- Modelled from the spec: the initial path of take_sample (spec 4.2
step 1, buildInitialSVD in the source headers).  The rank becomes 1, U
becomes u divided by its global norm, Sigma becomes the one-element
list holding that norm, and V becomes the 1-by-1 identity. -/
def buildInitialSVD {K : Type} [Field K] (s : Sample K) : Fact K :=
  { U := [s.u.map (fun x => x / s.nm.nrm)]
    Sigma := [s.nm.nrm]
    V := [[1]] }

/-- Projection coefficients of u on the current left basis (spec 4.2
step 2): the transpose of U applied to u. -/
def projCoeffs {K : Type} [Field K] (f : Fact K) (u : List K) : List K :=
  matTvec f.U u

/-- Residual of u after the first projection (spec 4.2 step 2). -/
def resid0 {K : Type} [Field K] (f : Fact K) (u : List K) : List K :=
  vsub u (matVec f.U (projCoeffs f u))

/-- Correction coefficients of the modified Gram-Schmidt pass
(spec 4.2 step 3). -/
def gsDelta {K : Type} [Field K] (f : Fact K) (u : List K) : List K :=
  matTvec f.U (resid0 f u)

/-- Residual after the unconditional Gram-Schmidt correction pass
(spec 4.2 step 3); its norm is norm_j. -/
def gsResid {K : Type} [Field K] (f : Fact K) (u : List K) : List K :=
  vsub (resid0 f u) (matVec f.U (gsDelta f u))

/-- Projection coefficients after the Gram-Schmidt correction pass. -/
def gsCoeffs {K : Type} [Field K] (f : Fact K) (u : List K) : List K :=
  vadd (projCoeffs f u) (gsDelta f u)

/-- Modelled from the spec: the augmented matrix Q of spec 4.2 step 5,
built from Sigma, the corrected projection coefficients and norm_j;
column-major, size (r+1) by (r+1). -/
def constructQ {K : Type} [Field K] (Sig ell : List K) (nj : K) : List (List K) :=
  (List.range Sig.length).map
    (fun i => oneHot (Sig.length + 1) i (Sig.getD i 0)) ++ [ell ++ [nj]]

/-- The augmented matrix computed while absorbing sample s into the
nonempty factorization f. -/
def theQ {K : Type} [Field K] (f : Fact K) (s : Sample K) : List (List K) :=
  constructQ f.Sigma (gsCoeffs f s.u) s.nm.nj

/-- Modelled from the spec: the redundancy decision of spec 4.2 step 4.
The snapshot is redundant exactly when norm_j is strictly below the
tolerance epsilon. -/
def isRedundant {K : Type} [Field K] [LinearOrder K] (cfg : Config K)
    (nm : Numerics K) : Bool :=
  decide (nm.nj < cfg.eps)

/-- The matrix [[V, 0], [0, 1]] used to extend the right basis by one
sample (column-major: every old column gains a trailing 0 and one new
standard-basis column is appended). -/
def extendV {K : Type} [Field K] (V : List (List K)) : List (List K) :=
  V.map (fun c => c ++ [0]) ++ [zeros (nRows V) ++ [1]]

/-- Modelled from the spec: the redundant branch of spec 4.2 step 6
(addRedundantIncrement in the source headers).  A and B are truncated
to their first r columns, Sigma becomes the first r new singular
values, V is extended by one sample and mixed by the truncated B
(elided entirely when skip_redundant is set, per spec 4.2.2), and U is
unchanged in the naive variant. -/
def addRedundantIncrement {K : Type} [Field K] (cfg : Config K) (f : Fact K)
    (nm : Numerics K) : Fact K :=
  { U := f.U
    Sigma := nm.S.take f.Sigma.length
    V := if cfg.skipRedundant then f.V
         else matMul (extendV f.V) (nm.B.take f.Sigma.length) }

/-- Modelled from the spec: the new branch of spec 4.2 step 6
(addNewIncrement in the source headers), naive variant.  The normalized
residual is appended as a new column of U, U is rotated by A, Sigma
becomes the full list of new singular values, and V is extended and
mixed by B. -/
def addNewIncrement {K : Type} [Field K] (f : Fact K) (u : List K)
    (nm : Numerics K) : Fact K :=
  { U := matMul (f.U ++ [(gsResid f u).map (fun x => x / nm.nj)]) nm.A
    Sigma := nm.S
    V := matMul (extendV f.V) nm.B }

/-- Modelled from the spec: one take_sample/increment call on the
current (possibly empty) factorization of the interval. -/
def increment {K : Type} [Field K] [LinearOrder K] (cfg : Config K)
    (st : Option (Fact K)) (s : Sample K) : Option (Fact K) :=
  match st with
  | none => some (buildInitialSVD s)
  | some f =>
      if isRedundant cfg s.nm then some (addRedundantIncrement cfg f s.nm)
      else some (addNewIncrement f s.u s.nm)

/-- Folding a whole snapshot stream through take_sample/increment. -/
def run {K : Type} [Field K] [LinearOrder K] (cfg : Config K)
    (st : Option (Fact K)) (ss : List (Sample K)) : Option (Fact K) :=
  ss.foldl (increment cfg) st

/-
The fast-update variant (spec 4.2 step 6, fast variant; spec 2 and the
d_L member of the incremental_svd header in src/).  Its bodies are
likewise absent from src/, so it is modelled from the spec: the state
keeps the untouched distributed factor U together with the small
replicated mixer L, and the true spatial basis is U times L.
-/

/-- The fast-update state: the distributed factor U, the replicated
mixer L (the spatial basis is U times L), the singular values and the
right basis. -/
structure FactF (K : Type) [Field K] where
  U : List (List K)
  L : List (List K)
  Sigma : List K
  V : List (List K)
deriving DecidableEq

/-- The factorization a fast-update state denotes: its spatial basis is
U times L (spec 2: the true left basis equals U times L). -/
def effFact {K : Type} [Field K] (ff : FactF K) : Fact K :=
  ⟨matMul ff.U ff.L, ff.Sigma, ff.V⟩

/-- Modelled from the spec: the initial path of the fast variant
(spec 4.2 step 1): as the naive one, with L the 1-by-1 identity. -/
def buildInitialSVDFast {K : Type} [Field K] (s : Sample K) : FactF K :=
  { U := [s.u.map (fun x => x / s.nm.nrm)]
    L := [[1]]
    Sigma := [s.nm.nrm]
    V := [[1]] }

/-- The leading r-by-r block of a column-major matrix. -/
def takeTop {K : Type} [Field K] (r : Nat) (A : List (List K)) : List (List K) :=
  (A.take r).map (List.take r)

/-- Modelled from the spec: the redundant branch of the fast variant
(spec 4.2 step 6): U is untouched, L is mixed by the leading r-by-r
block of A, Sigma and V are updated as in the naive variant. -/
def addRedundantIncrementFast {K : Type} [Field K] (cfg : Config K)
    (ff : FactF K) (nm : Numerics K) : FactF K :=
  { U := ff.U
    L := matMul ff.L (takeTop ff.Sigma.length nm.A)
    Sigma := nm.S.take ff.Sigma.length
    V := if cfg.skipRedundant then ff.V
         else matMul (extendV ff.V) (nm.B.take ff.Sigma.length) }

/-- Modelled from the spec: the new branch of the fast variant
(spec 4.2 step 6): the normalized residual of the effective basis is
appended to U, which is otherwise untouched, and the rotation by A is
deferred into L through the bordered matrix [[L, 0], [0, 1]] (built by
extendV, which implements the generic bordering). -/
def addNewIncrementFast {K : Type} [Field K] (ff : FactF K) (u : List K)
    (nm : Numerics K) : FactF K :=
  { U := ff.U ++ [(gsResid (effFact ff) u).map (fun x => x / nm.nj)]
    L := matMul (extendV ff.L) nm.A
    Sigma := nm.S
    V := matMul (extendV ff.V) nm.B }

/-- Modelled from the spec: one take_sample/increment call of the
fast-update variant. -/
def incrementFast {K : Type} [Field K] [LinearOrder K] (cfg : Config K)
    (st : Option (FactF K)) (s : Sample K) : Option (FactF K) :=
  match st with
  | none => some (buildInitialSVDFast s)
  | some ff =>
      if isRedundant cfg s.nm then some (addRedundantIncrementFast cfg ff s.nm)
      else some (addNewIncrementFast ff s.u s.nm)

/-- Folding a snapshot stream through the fast variant. -/
def runFast {K : Type} [Field K] [LinearOrder K] (cfg : Config K)
    (st : Option (FactF K)) (ss : List (Sample K)) : Option (FactF K) :=
  ss.foldl (incrementFast cfg) st

/-- Simulation relation between the variants: the fast state denotes
exactly the naive state (spatial basis U times L equal to the naive U,
equal singular values, equal right basis). -/
def SimF {K : Type} [Field K] (ff : FactF K) (fn : Fact K) : Prop :=
  matMul ff.U ff.L = fn.U ∧ ff.Sigma = fn.Sigma ∧ ff.V = fn.V

/-- Simulation on optional states. -/
def OSimF {K : Type} [Field K] : Option (FactF K) → Option (Fact K) → Prop
  | none, none => True
  | some ff, some fn => SimF ff fn
  | _, _ => False

/-- Dimension side conditions of one step, stated against the fast
state: a nonempty U with uniform column length, a nonempty L whose
columns have one entry per column of U, and a snapshot of the row
dimension.  These say the stream has the fixed local dimension the
spec fixes at construction. -/
def StepSide {K : Type} [Field K] (ff : FactF K) (s : Sample K) : Prop :=
  ff.U ≠ [] ∧ (∀ c ∈ ff.U, c.length = nRows ff.U) ∧
  ff.L ≠ [] ∧ (∀ l ∈ ff.L, l.length = ff.U.length) ∧
  s.u.length = nRows ff.U

/-- The dimension side conditions of every step of a paired run. -/
def EquivTrace {K : Type} [Field K] [LinearOrder K] (cfg : Config K) :
    Option (FactF K) → Option (Fact K) → List (Sample K) → Prop
  | _, _, [] => True
  | stf, stn, s :: rest =>
      (match stf with
       | none => True
       | some ff => StepSide ff s) ∧
      EquivTrace cfg (incrementFast cfg stf s) (increment cfg stn s) rest

/-- Contract of the numerical results of the initial path: nrm is the
(nonnegative, nonzero) global norm of the snapshot. -/
def ValidInit {K : Type} [Field K] [LinearOrder K] (s : Sample K) : Prop :=
  s.nm.nrm * s.nm.nrm = sumSq s.u ∧ 0 ≤ s.nm.nrm ∧ s.nm.nrm ≠ 0

/-- Contract of the recorded residual norm: nj is the nonnegative
square root of the sum of squares of the corrected residual. -/
def ValidNj {K : Type} [Field K] [LinearOrder K] (f : Fact K) (s : Sample K) : Prop :=
  s.nm.nj * s.nm.nj = sumSq (gsResid f s.u) ∧ 0 ≤ s.nm.nj

/-- Contract of the dense SVD kernel on the augmented matrix (spec 4.1):
Q times B equals A times the diagonal of S, the columns of A and of B
are orthonormal, and the singular values are nonnegative and
non-increasing. -/
def ValidSVD {K : Type} [Field K] [LinearOrder K] (Q A : List (List K))
    (S : List K) (B : List (List K)) : Prop :=
  matMul Q B = matMul A (diagM S) ∧
  gram A = idMat A.length ∧
  gram B = idMat B.length ∧
  List.Sorted (· ≥ ·) S ∧
  ∀ x ∈ S, 0 ≤ x

/-- Full contract of the numerical results consumed when absorbing a
snapshot into a nonempty factorization of rank r: the residual norm
contract, the SVD contract for the (r+1)-sized augmented matrix, and
the dimensions of the triple. -/
def ValidStep {K : Type} [Field K] [LinearOrder K] (f : Fact K) (s : Sample K) : Prop :=
  ValidNj f s ∧
  ValidSVD (theQ f s) s.nm.A s.nm.S s.nm.B ∧
  s.nm.A.length = f.Sigma.length + 1 ∧
  s.nm.S.length = f.Sigma.length + 1 ∧
  s.nm.B.length = f.Sigma.length + 1 ∧
  (∀ c ∈ s.nm.A, c.length = f.Sigma.length + 1) ∧
  (∀ c ∈ s.nm.B, c.length = f.Sigma.length + 1)

/-- Validity of the numerics of one sample relative to the state it is
absorbed into. -/
def ValidSample {K : Type} [Field K] [LinearOrder K] (st : Option (Fact K))
    (s : Sample K) : Prop :=
  match st with
  | none => ValidInit s
  | some f => ValidStep f s

/-- Validity of a whole snapshot stream: every sample's recorded
numerics satisfy their contract at the state they were absorbed into. -/
def ValidTrace {K : Type} [Field K] [LinearOrder K] (cfg : Config K) :
    Option (Fact K) → List (Sample K) → Prop
  | _, [] => True
  | st, s :: rest => ValidSample st s ∧ ValidTrace cfg (increment cfg st s) rest

instance {K : Type} [Field K] [LinearOrder K] (s : Sample K) :
    Decidable (ValidInit s) := by
  unfold ValidInit; infer_instance

instance {K : Type} [Field K] [LinearOrder K] (f : Fact K) (s : Sample K) :
    Decidable (ValidNj f s) := by
  unfold ValidNj; infer_instance

instance {K : Type} [Field K] [LinearOrder K] (Q A : List (List K))
    (S : List K) (B : List (List K)) : Decidable (ValidSVD Q A S B) := by
  unfold ValidSVD; infer_instance

instance {K : Type} [Field K] [LinearOrder K] (f : Fact K) (s : Sample K) :
    Decidable (ValidStep f s) := by
  unfold ValidStep; infer_instance

instance {K : Type} [Field K] [LinearOrder K] (st : Option (Fact K))
    (s : Sample K) : Decidable (ValidSample st s) := by
  unfold ValidSample
  match st with
  | none => infer_instance
  | some f => infer_instance

instance instDecidableValidTrace {K : Type} [Field K] [LinearOrder K]
    (cfg : Config K) : (st : Option (Fact K)) → (ss : List (Sample K)) →
    Decidable (ValidTrace cfg st ss)
  | _, [] => isTrue trivial
  | st, s :: rest =>
      @instDecidableAnd _ _ _ (instDecidableValidTrace cfg (increment cfg st s) rest)

/-
The field Q(sqrt 2), with its real (archimedean) linear order, built
computably so that concrete traces whose singular values involve sqrt 2
can be evaluated by the kernel.  An element x represents the real
number x.a + x.b * sqrt 2.
-/

structure Qrt2 where
  a : ℚ
  b : ℚ
deriving DecidableEq

namespace Qrt2

theorem ext2 : ∀ {x y : Qrt2}, x.a = y.a → x.b = y.b → x = y
  | ⟨_, _⟩, ⟨_, _⟩, rfl, rfl => rfl

/-- No rational squares to 2 (irrationality of sqrt 2, rational form). -/
theorem rat_sq_ne_two (q : ℚ) : q * q ≠ 2 := by
  intro h
  have h2 : ((q : ℝ)) * (q : ℝ) = 2 := by exact_mod_cast h
  have h3 : Real.sqrt 2 = |(q : ℝ)| := by
    rw [← h2, Real.sqrt_mul_self_eq_abs]
  have h4 : |(q : ℝ)| = ((|q| : ℚ) : ℝ) := by push_cast; ring
  exact irrational_sqrt_two ⟨|q|, by rw [h3, h4]⟩

/-- The representation is faithful: a + b * sqrt 2 vanishes only for
a = b = 0. -/
theorem repr_eq_zero {p q : ℚ} (h : (p : ℝ) + q * Real.sqrt 2 = 0) :
    p = 0 ∧ q = 0 := by
  by_cases hq : q = 0
  · subst hq
    simp only [Rat.cast_zero, zero_mul, add_zero] at h
    exact ⟨by exact_mod_cast h, rfl⟩
  · exfalso
    have hq2 : ((q : ℝ)) ≠ 0 := by exact_mod_cast hq
    have hs : Real.sqrt 2 = ((-p / q : ℚ) : ℝ) := by
      push_cast
      field_simp
      linarith [h]
    exact irrational_sqrt_two ⟨-p / q, hs.symm⟩

def qzero : Qrt2 := ⟨0, 0⟩

def qone : Qrt2 := ⟨1, 0⟩

def qadd (x y : Qrt2) : Qrt2 := ⟨x.a + y.a, x.b + y.b⟩

def qneg (x : Qrt2) : Qrt2 := ⟨-x.a, -x.b⟩

def qmul (x y : Qrt2) : Qrt2 :=
  ⟨x.a * y.a + 2 * (x.b * y.b), x.a * y.b + x.b * y.a⟩

def qinv (x : Qrt2) : Qrt2 :=
  ⟨x.a / (x.a * x.a - 2 * (x.b * x.b)), -x.b / (x.a * x.a - 2 * (x.b * x.b))⟩

theorem qadd_assoc (x y z : Qrt2) : qadd (qadd x y) z = qadd x (qadd y z) := by
  cases x; cases y; cases z
  simp only [qadd, mk.injEq]
  constructor <;> ring

theorem qzero_add (x : Qrt2) : qadd qzero x = x := by
  cases x
  simp only [qadd, qzero, mk.injEq]
  constructor <;> ring

theorem qadd_zero (x : Qrt2) : qadd x qzero = x := by
  cases x
  simp only [qadd, qzero, mk.injEq]
  constructor <;> ring

theorem qadd_comm (x y : Qrt2) : qadd x y = qadd y x := by
  cases x; cases y
  simp only [qadd, mk.injEq]
  constructor <;> ring

theorem qmul_assoc (x y z : Qrt2) : qmul (qmul x y) z = qmul x (qmul y z) := by
  cases x; cases y; cases z
  simp only [qmul, mk.injEq]
  constructor <;> ring

theorem qone_mul (x : Qrt2) : qmul qone x = x := by
  cases x
  simp only [qmul, qone, mk.injEq]
  constructor <;> ring

theorem qmul_one (x : Qrt2) : qmul x qone = x := by
  cases x
  simp only [qmul, qone, mk.injEq]
  constructor <;> ring

theorem qleft_distrib (x y z : Qrt2) :
    qmul x (qadd y z) = qadd (qmul x y) (qmul x z) := by
  cases x; cases y; cases z
  simp only [qmul, qadd, mk.injEq]
  constructor <;> ring

theorem qright_distrib (x y z : Qrt2) :
    qmul (qadd x y) z = qadd (qmul x z) (qmul y z) := by
  cases x; cases y; cases z
  simp only [qmul, qadd, mk.injEq]
  constructor <;> ring

theorem qmul_comm (x y : Qrt2) : qmul x y = qmul y x := by
  cases x; cases y
  simp only [qmul, mk.injEq]
  constructor <;> ring

theorem qzero_mul (x : Qrt2) : qmul qzero x = qzero := by
  cases x
  simp only [qmul, qzero, mk.injEq]
  constructor <;> ring

theorem qmul_zero (x : Qrt2) : qmul x qzero = qzero := by
  cases x
  simp only [qmul, qzero, mk.injEq]
  constructor <;> ring

theorem qneg_add_cancel (x : Qrt2) : qadd (qneg x) x = qzero := by
  cases x
  simp only [qadd, qneg, qzero, mk.injEq]
  constructor <;> ring

instance : Zero Qrt2 := ⟨qzero⟩

instance : One Qrt2 := ⟨qone⟩

instance : Add Qrt2 := ⟨qadd⟩

instance : Mul Qrt2 := ⟨qmul⟩

instance : Neg Qrt2 := ⟨qneg⟩

instance : CommRing Qrt2 where
  add_assoc := qadd_assoc
  zero_add := qzero_add
  add_zero := qadd_zero
  add_comm := qadd_comm
  mul_assoc := qmul_assoc
  one_mul := qone_mul
  mul_one := qmul_one
  left_distrib := qleft_distrib
  right_distrib := qright_distrib
  mul_comm := qmul_comm
  zero_mul := qzero_mul
  mul_zero := qmul_zero
  neg_add_cancel := qneg_add_cancel
  nsmul := nsmulRec
  zsmul := zsmulRec

@[simp] theorem add_a (x y : Qrt2) : (x + y).a = x.a + y.a := rfl

@[simp] theorem add_b (x y : Qrt2) : (x + y).b = x.b + y.b := rfl

@[simp] theorem mul_a (x y : Qrt2) : (x * y).a = x.a * y.a + 2 * (x.b * y.b) := rfl

@[simp] theorem mul_b (x y : Qrt2) : (x * y).b = x.a * y.b + x.b * y.a := rfl

@[simp] theorem neg_a (x : Qrt2) : (-x).a = -x.a := rfl

@[simp] theorem neg_b (x : Qrt2) : (-x).b = -x.b := rfl

@[simp] theorem sub_a (x y : Qrt2) : (x - y).a = x.a - y.a := by
  show (qadd x (qneg y)).a = _
  simp only [qadd, qneg]
  ring

@[simp] theorem sub_b (x y : Qrt2) : (x - y).b = x.b - y.b := by
  show (qadd x (qneg y)).b = _
  simp only [qadd, qneg]
  ring

@[simp] theorem zero_a : (0 : Qrt2).a = 0 := rfl

@[simp] theorem zero_b : (0 : Qrt2).b = 0 := rfl

@[simp] theorem one_a : (1 : Qrt2).a = 1 := rfl

@[simp] theorem one_b : (1 : Qrt2).b = 0 := rfl

theorem zero_def : (0 : Qrt2) = ⟨0, 0⟩ := rfl

/-- The norm form of the extension is anisotropic: the denominator of
the inverse vanishes only at zero. -/
theorem norm_ne_zero {x : Qrt2} (hx : x ≠ 0) :
    x.a * x.a - 2 * (x.b * x.b) ≠ 0 := by
  intro h
  by_cases hb : x.b = 0
  · apply hx
    apply ext2
    · have : x.a * x.a = 0 := by rw [hb] at h; linarith
      exact mul_self_eq_zero.mp this
    · simp [hb]
  · have h2 : (x.a / x.b) * (x.a / x.b) = 2 := by
      field_simp
      linarith
    exact rat_sq_ne_two _ h2

instance : Field Qrt2 where
  inv := qinv
  exists_pair_ne := ⟨0, 1, by decide⟩
  mul_inv_cancel x hx := by
    have hd := norm_ne_zero hx
    apply ext2
    · show x.a * (x.a / _) + 2 * (x.b * (-x.b / _)) = 1
      field_simp
      ring
    · show x.a * (-x.b / _) + x.b * (x.a / _) = 0
      field_simp
      ring
  inv_zero := by
    apply ext2 <;> simp [qinv, zero_def]
  qsmul := _
  nnqsmul := _

/-- Computable nonnegativity test, by sign analysis of the two
coordinates; proved below to agree with nonnegativity of the
represented real number. -/
def Nneg (x : Qrt2) : Prop :=
  (0 ≤ x.a ∧ 0 ≤ x.b) ∨
  (0 ≤ x.a ∧ x.b < 0 ∧ 2 * (x.b * x.b) ≤ x.a * x.a) ∨
  (x.a < 0 ∧ 0 ≤ x.b ∧ x.a * x.a ≤ 2 * (x.b * x.b))

instance (x : Qrt2) : Decidable (Nneg x) := by
  unfold Nneg; infer_instance

/-- A nonnegative real is bounded by another nonnegative real whenever
the squares are so bounded. -/
theorem le_of_mul_self_le (p q : ℝ) (hp : 0 ≤ p) (hq : 0 ≤ q)
    (h : p * p ≤ q * q) : p ≤ q := by
  have h5 := Real.sqrt_le_sqrt h
  rwa [Real.sqrt_mul_self_eq_abs, Real.sqrt_mul_self_eq_abs,
    abs_of_nonneg hp, abs_of_nonneg hq] at h5

/-- Sign analysis agrees with the sign of the represented real. -/
theorem nneg_iff (x : Qrt2) : Nneg x ↔ 0 ≤ (x.a : ℝ) + x.b * Real.sqrt 2 := by
  have hs0 : (0 : ℝ) ≤ Real.sqrt 2 := Real.sqrt_nonneg 2
  have hs2 : Real.sqrt 2 * Real.sqrt 2 = 2 := Real.mul_self_sqrt (by norm_num)
  constructor
  · rintro (⟨h1, h2⟩ | ⟨h1, h2, h3⟩ | ⟨h1, h2, h3⟩)
    · have c1 : (0 : ℝ) ≤ (x.a : ℝ) := by exact_mod_cast h1
      have c2 : (0 : ℝ) ≤ (x.b : ℝ) := by exact_mod_cast h2
      positivity
    · have c1 : (0 : ℝ) ≤ (x.a : ℝ) := by exact_mod_cast h1
      have c2 : ((x.b : ℝ)) < 0 := by exact_mod_cast h2
      have c3 : 2 * ((x.b : ℝ) * (x.b : ℝ)) ≤ (x.a : ℝ) * (x.a : ℝ) := by
        exact_mod_cast h3
      have hp : (0 : ℝ) ≤ -(x.b : ℝ) * Real.sqrt 2 :=
        mul_nonneg (by linarith) hs0
      have hpp : (-(x.b : ℝ) * Real.sqrt 2) * (-(x.b : ℝ) * Real.sqrt 2) =
          2 * ((x.b : ℝ) * (x.b : ℝ)) := by
        rw [mul_mul_mul_comm, hs2]
        ring
      have := le_of_mul_self_le (-(x.b : ℝ) * Real.sqrt 2) ((x.a : ℝ))
        hp c1 (by rw [hpp]; exact c3)
      linarith
    · have c1 : ((x.a : ℝ)) < 0 := by exact_mod_cast h1
      have c2 : (0 : ℝ) ≤ (x.b : ℝ) := by exact_mod_cast h2
      have c3 : (x.a : ℝ) * (x.a : ℝ) ≤ 2 * ((x.b : ℝ) * (x.b : ℝ)) := by
        exact_mod_cast h3
      have hq : (0 : ℝ) ≤ (x.b : ℝ) * Real.sqrt 2 := mul_nonneg c2 hs0
      have hqq : ((x.b : ℝ) * Real.sqrt 2) * ((x.b : ℝ) * Real.sqrt 2) =
          2 * ((x.b : ℝ) * (x.b : ℝ)) := by
        rw [mul_mul_mul_comm, hs2]
        ring
      have := le_of_mul_self_le (-(x.a : ℝ)) ((x.b : ℝ) * Real.sqrt 2)
        (by linarith) hq (by rw [hqq]; nlinarith [c3])
      linarith
  · intro h
    rcases le_or_lt 0 x.a with ha | ha <;> rcases le_or_lt 0 x.b with hb | hb
    · exact Or.inl ⟨ha, hb⟩
    · rcases le_or_lt (2 * (x.b * x.b)) (x.a * x.a) with hc | hc
      · exact Or.inr (Or.inl ⟨ha, hb, hc⟩)
      · exfalso
        have c1 : (0 : ℝ) ≤ (x.a : ℝ) := by exact_mod_cast ha
        have c2 : ((x.b : ℝ)) < 0 := by exact_mod_cast hb
        have c3 : (x.a : ℝ) * (x.a : ℝ) < 2 * ((x.b : ℝ) * (x.b : ℝ)) := by
          exact_mod_cast hc
        have hp : (0 : ℝ) ≤ -(x.b : ℝ) * Real.sqrt 2 :=
          mul_nonneg (by linarith) hs0
        have h6 : -(x.b : ℝ) * Real.sqrt 2 ≤ (x.a : ℝ) := by linarith
        have h7 := mul_self_le_mul_self hp h6
        have hpp : (-(x.b : ℝ) * Real.sqrt 2) * (-(x.b : ℝ) * Real.sqrt 2) =
            2 * ((x.b : ℝ) * (x.b : ℝ)) := by
          rw [mul_mul_mul_comm, hs2]
          ring
        rw [hpp] at h7
        linarith
    · rcases le_or_lt (x.a * x.a) (2 * (x.b * x.b)) with hc | hc
      · exact Or.inr (Or.inr ⟨ha, hb, hc⟩)
      · exfalso
        have c1 : ((x.a : ℝ)) < 0 := by exact_mod_cast ha
        have c2 : (0 : ℝ) ≤ (x.b : ℝ) := by exact_mod_cast hb
        have c3 : 2 * ((x.b : ℝ) * (x.b : ℝ)) < (x.a : ℝ) * (x.a : ℝ) := by
          exact_mod_cast hc
        have hq : (0 : ℝ) ≤ (x.b : ℝ) * Real.sqrt 2 := mul_nonneg c2 hs0
        have h6 : -(x.a : ℝ) ≤ (x.b : ℝ) * Real.sqrt 2 := by linarith
        have h7 := mul_self_le_mul_self (by linarith) h6
        have hqq : ((x.b : ℝ) * Real.sqrt 2) * ((x.b : ℝ) * Real.sqrt 2) =
            2 * ((x.b : ℝ) * (x.b : ℝ)) := by
          rw [mul_mul_mul_comm, hs2]
          ring
        rw [hqq] at h7
        nlinarith [h7]
    · exfalso
      have c1 : ((x.a : ℝ)) < 0 := by exact_mod_cast ha
      have c2 : ((x.b : ℝ)) < 0 := by exact_mod_cast hb
      have hq : (0 : ℝ) ≤ -(x.b : ℝ) * Real.sqrt 2 :=
        mul_nonneg (by linarith) hs0
      linarith

instance : LE Qrt2 := ⟨fun x y => Nneg (y - x)⟩

theorem le_def (x y : Qrt2) : (x ≤ y) ↔ Nneg (y - x) := Iff.rfl

/-- The order agrees with the order of the represented reals. -/
theorem le_iff_real (x y : Qrt2) :
    x ≤ y ↔ (x.a : ℝ) + x.b * Real.sqrt 2 ≤ (y.a : ℝ) + y.b * Real.sqrt 2 := by
  rw [le_def, nneg_iff, sub_a, sub_b]
  push_cast
  constructor <;> intro h <;> nlinarith [h]

/-- The representation is injective. -/
theorem repr_inj {x y : Qrt2}
    (h : (x.a : ℝ) + x.b * Real.sqrt 2 = (y.a : ℝ) + y.b * Real.sqrt 2) :
    x = y := by
  have h1 : (((x.a - y.a : ℚ)) : ℝ) + ((x.b - y.b : ℚ)) * Real.sqrt 2 = 0 := by
    push_cast
    nlinarith [h]
  have h2 := repr_eq_zero h1
  exact ext2 (by linarith [sub_eq_zero.mp h2.1]) (by linarith [sub_eq_zero.mp h2.2])

instance : LinearOrder Qrt2 where
  le := (· ≤ ·)
  le_refl x := by
    rw [le_iff_real]
  le_trans x y z hxy hyz := by
    rw [le_iff_real] at hxy hyz ⊢
    linarith [hxy, hyz]
  le_antisymm x y hxy hyx := by
    rw [le_iff_real] at hxy hyx
    exact repr_inj (le_antisymm hxy hyx)
  le_total x y := by
    rw [le_iff_real, le_iff_real]
    exact le_total _ _
  decidableLE x y := inferInstanceAs (Decidable (Nneg (y - x)))

/-- Definitional form of the order, stated after the linear order
instance so that it applies to the instance path used by later goals. -/
theorem le_mk (x y : Qrt2) : x ≤ y ↔ Nneg (y - x) := Iff.rfl

/-- The strict order in terms of the nonstrict one. -/
theorem lt_mk (x y : Qrt2) : x < y ↔ (x ≤ y ∧ ¬ y ≤ x) := lt_iff_le_not_le

@[simp] theorem mk_add_mk (p q r s : ℚ) :
    (⟨p, q⟩ : Qrt2) + ⟨r, s⟩ = ⟨p + r, q + s⟩ := rfl

@[simp] theorem mk_mul_mk (p q r s : ℚ) :
    (⟨p, q⟩ : Qrt2) * ⟨r, s⟩ = ⟨p * r + 2 * (q * s), p * s + q * r⟩ := rfl

@[simp] theorem neg_mk (p q : ℚ) : -(⟨p, q⟩ : Qrt2) = ⟨-p, -q⟩ := rfl

@[simp] theorem mk_sub_mk (p q r s : ℚ) :
    (⟨p, q⟩ : Qrt2) - ⟨r, s⟩ = ⟨p - r, q - s⟩ := by
  apply ext2 <;> simp

@[simp] theorem inv_mk (p q : ℚ) :
    (⟨p, q⟩ : Qrt2)⁻¹ = ⟨p / (p * p - 2 * (q * q)), -q / (p * p - 2 * (q * q))⟩ := rfl

@[simp] theorem zero_mk : (0 : Qrt2) = ⟨0, 0⟩ := rfl

@[simp] theorem one_mk : (1 : Qrt2) = ⟨1, 0⟩ := rfl

/-- Equality in the extension is componentwise equality; stated for
arbitrary terms so that it applies whatever instance path produced the
operands. -/
@[simp] theorem eq_iff_components (x y : Qrt2) : x = y ↔ x.a = y.a ∧ x.b = y.b := by
  constructor
  · rintro rfl
    exact ⟨rfl, rfl⟩
  · rintro ⟨h1, h2⟩
    exact ext2 h1 h2

end Qrt2

/-- Invariant I2 of the spec: the stored singular values are
nonnegative and non-increasing. -/
def SigmaOk {K : Type} [Field K] [LinearOrder K] (st : Option (Fact K)) : Prop :=
  match st with
  | none => True
  | some f => List.Sorted (· ≥ ·) f.Sigma ∧ ∀ x ∈ f.Sigma, 0 ≤ x

instance {K : Type} [Field K] [LinearOrder K] (st : Option (Fact K)) :
    Decidable (SigmaOk st) := by
  unfold SigmaOk
  match st with
  | none => exact inferInstance
  | some f => exact inferInstance

/-
Time-interval management (spec 4.3), modelled from the spec: the
increments-per-interval counter, the list of completed interval sizes
and the replicated list of interval start times.
-/

/-- Interval bookkeeping state: number of samples in the current
interval, sizes of the completed intervals, and the recorded interval
start times. -/
structure IState where
  cur : Nat
  done : List Nat
  starts : List ℚ
deriving DecidableEq

/-- The interval state at construction: no interval started yet. -/
def istInit : IState := ⟨0, [], []⟩

/-- Modelled from the spec: interval bookkeeping of one take_sample
call (spec 4.3).  A new interval begins on the first take_sample after
construction (counter 0) or after the previous interval reached
max_increments_per_interval; on such a rollover the start time is
appended to the replicated list. -/
def istep (maxIncr : Nat) (st : IState) (t : ℚ) : IState :=
  if st.cur = 0 ∨ maxIncr ≤ st.cur then
    { cur := 1
      done := st.done ++ (if maxIncr ≤ st.cur then [st.cur] else [])
      starts := st.starts ++ [t] }
  else
    { st with cur := st.cur + 1 }

/-- Folding a stream of sample times through the interval bookkeeping. -/
def irun (maxIncr : Nat) (st : IState) (ts : List ℚ) : IState :=
  ts.foldl (istep maxIncr) st

/-- The sizes of all intervals, the running one included. -/
def isizes (st : IState) : List Nat :=
  st.done ++ (if st.cur = 0 then [] else [st.cur])

/-
Constructor and increment preconditions (spec 7, and the @pre clauses
of IncrementalSVDNaive.h), modelled from the spec: violating them
aborts the process group, modelled as the value none.
-/

/-- Constructor parameters of the incremental SVD. -/
structure SvdParams where
  dim : Int
  eps : ℚ
  skipRedundant : Bool
  maxIncr : Int
deriving DecidableEq

/-- Modelled from the spec: construction checks its preconditions
dim > 0, redundancy_tol > 0 and increments_per_time_interval > 0
(spec 7, IncrementalSVDNaive.h lines 29-31); a violation aborts. -/
def mkIncrementalSVD (dim : Int) (eps : ℚ) (skip : Bool) (maxIncr : Int) :
    Option SvdParams :=
  if 0 < dim ∧ 0 < eps ∧ 0 < maxIncr then some ⟨dim, eps, skip, maxIncr⟩
  else none

/-- Modelled from the spec: the increment entry point checks its
preconditions u_in != 0 and time >= 0 (spec 7, IncrementalSVDNaive.h
lines 55-56); the snapshot pointer is modelled as an optional vector,
none standing for the null pointer, and a violation aborts. -/
def incrementCheck (u : Option (List ℚ)) (time : ℚ) : Option (List ℚ) :=
  match u with
  | none => none
  | some v => if 0 ≤ time then some v else none

/-
BasisWriter, translated from the source in src/ (the BasisWriter
constructor and writeBasis).
-/

/-- Decimal digit characters of a natural number, most significant
first; the semantics of printing a nonnegative integer with percent-d. -/
def decDigits (n : Nat) : List Char :=
  if n = 0 then ['0']
  else ((Nat.digits 10 n).map (fun d => Char.ofNat (48 + d))).reverse

/-- The sprintf "%06d" formatting used by the BasisWriter constructor:
the decimal digits, left-padded with zeros to at least six characters. -/
def pad6 (n : Nat) : String :=
  ⟨List.replicate (6 - (decDigits n).length) '0' ++ decDigits n⟩

/-- The basis-file suffix ".%06d" of the given rank. -/
def basisSuffix (rank : Nat) : String :=
  "." ++ pad6 rank

/-- The snapshot-file suffix "_snapshot.%06d" of the given rank. -/
def snapSuffix (rank : Nat) : String :=
  "_snapshot." ++ pad6 rank

/-- The state a BasisWriter holds after construction that matters for
its output files: the two file names. -/
structure BasisWriter where
  fullFileName : String
  snapFileName : String
deriving DecidableEq

/-- The BasisWriter constructor (source lines 199-235): it asserts a
nonnull generator and a nonempty base name, uses the MPI rank when MPI
is initialized and rank 0 otherwise, and forms the two file names by
appending ".%06d" and "_snapshot.%06d" to the base name. -/
def mkBasisWriter (generatorNonNull : Bool) (baseFileName : String)
    (mpiInitialized : Bool) (mpiRank : Nat) : Option BasisWriter :=
  if generatorNonNull ∧ baseFileName ≠ "" then
    some { fullFileName := baseFileName ++ basisSuffix (if mpiInitialized then mpiRank else 0)
           snapFileName := baseFileName ++ snapSuffix (if mpiInitialized then mpiRank else 0) }
  else none

def kindBasis : String := "basis"

def kindSnapshot : String := "snapshot"

def recSpatialRows : String := "spatial_basis_num_rows"

def recSpatialCols : String := "spatial_basis_num_cols"

def recSpatial : String := "spatial_basis"

def recTemporalRows : String := "temporal_basis_num_rows"

def recTemporalCols : String := "temporal_basis_num_cols"

def recTemporal : String := "temporal_basis"

def recSingularSize : String := "singular_value_size"

def recSingular : String := "singular_value"

def recSnapRows : String := "snapshot_matrix_num_rows"

def recSnapCols : String := "snapshot_matrix_num_cols"

def recSnap : String := "snapshot_matrix"

/-- The record names written to a basis database by writeBasis (source
lines 250-283): the spatial basis triple, the temporal basis triple
exactly when updateRightSV is on, and the singular value pair. -/
def basisRecordNames (updateRightSV : Bool) : List String :=
  [recSpatialRows, recSpatialCols, recSpatial] ++
  (if updateRightSV then [recTemporalRows, recTemporalCols, recTemporal] else []) ++
  [recSingularSize, recSingular]

/-- The record names written to a snapshot database by writeBasis
(source lines 285-299). -/
def snapRecordNames : List String :=
  [recSnapRows, recSnapCols, recSnap]

/-- The observable effect of one writeBasis call: which of the two
databases were created and written, and with which records. -/
structure WriteOutcome where
  basisCreated : Bool
  snapCreated : Bool
  basisRecords : List String
  snapRecords : List String
deriving DecidableEq

/-- BasisWriter::writeBasis (source lines 243-301): the kind argument
is asserted to be "basis" or "snapshot" (any other value fails the
assertion, modelled as none); the basis database is created and
written exactly for kind "basis", the snapshot database exactly for
kind "snapshot". -/
def writeBasis (kind : String) (updateRightSV : Bool) : Option WriteOutcome :=
  if kind = kindBasis ∨ kind = kindSnapshot then
    some { basisCreated := kind == kindBasis
           snapCreated := kind == kindSnapshot
           basisRecords := if kind = kindBasis then basisRecordNames updateRightSV else []
           snapRecords := if kind = kindSnapshot then snapRecordNames else [] }
  else none

/-
Helper lemmas.
-/

/-- For n below a million the padded decimal string has exactly six
characters. -/
theorem pad6_length_of_lt (n : Nat) (h : n < 1000000) : (pad6 n).length = 6 := by
  have hlen : (decDigits n).length ≤ 6 := by
    by_cases hn : n = 0
    · simp [decDigits, hn]
    · have h10 : (1 : Nat) < 10 := by norm_num
      have hpow : n < 10 ^ 6 := by norm_num at h ⊢; exact h
      have hlog : Nat.log 10 n < 6 := Nat.log_lt_of_lt_pow hn hpow
      simp only [decDigits, hn, if_false, List.length_reverse, List.length_map]
      rw [Nat.digits_len 10 n h10 hn]
      omega
  show (List.replicate (6 - (decDigits n).length) '0' ++ decDigits n).length = 6
  rw [List.length_append, List.length_replicate]
  omega

/-- The recorded interval start times of a run extend the initial ones
by a sublist of the fed sample times. -/
theorem irun_starts_append (maxIncr : Nat) :
    ∀ (ts : List ℚ) (st : IState),
      ∃ l, l.Sublist ts ∧ (irun maxIncr st ts).starts = st.starts ++ l := by
  intro ts
  induction ts with
  | nil =>
      intro st
      exact ⟨[], List.Sublist.refl _, (List.append_nil _).symm⟩
  | cons t rest ih =>
      intro st
      obtain ⟨l, hl, he⟩ := ih (istep maxIncr st t)
      by_cases h : st.cur = 0 ∨ maxIncr ≤ st.cur
      · refine ⟨t :: l, List.Sublist.cons₂ t hl, ?_⟩
        have h2 : (istep maxIncr st t).starts = st.starts ++ [t] := by
          simp [istep, h]
        calc (irun maxIncr st (t :: rest)).starts
            = (irun maxIncr (istep maxIncr st t) rest).starts := rfl
          _ = (istep maxIncr st t).starts ++ l := he
          _ = st.starts ++ (t :: l) := by rw [h2, List.append_assoc]; rfl
      · refine ⟨l, List.Sublist.cons t hl, ?_⟩
        have h2 : (istep maxIncr st t).starts = st.starts := by
          simp [istep, h]
        calc (irun maxIncr st (t :: rest)).starts
            = (istep maxIncr st t).starts ++ l := he
          _ = st.starts ++ l := by rw [h2]

/-- Reduction of take_sample on an empty factorization. -/
theorem increment_none {K : Type} [Field K] [LinearOrder K] (cfg : Config K)
    (s : Sample K) : increment cfg none s = some (buildInitialSVD s) := rfl

/-- Reduction of take_sample on a nonempty factorization. -/
theorem increment_some {K : Type} [Field K] [LinearOrder K] (cfg : Config K)
    (f : Fact K) (s : Sample K) :
    increment cfg (some f) s =
      if isRedundant cfg s.nm then some (addRedundantIncrement cfg f s.nm)
      else some (addNewIncrement f s.u s.nm) := rfl

/-- A single take_sample call preserves invariant I2 when the
numerical results it consumed satisfy their contract. -/
theorem sigmaOk_increment {K : Type} [Field K] [LinearOrder K] (cfg : Config K)
    (st : Option (Fact K)) (s : Sample K) (hok : SigmaOk st)
    (hv : ValidSample st s) : SigmaOk (increment cfg st s) := by
  match st with
  | none =>
      have h1 : 0 ≤ s.nm.nrm := hv.2.1
      show SigmaOk (some (buildInitialSVD s))
      refine ⟨List.sorted_singleton _, ?_⟩
      intro x hx
      simp only [buildInitialSVD, List.mem_singleton] at hx
      rw [hx]
      exact h1
  | some f =>
      obtain ⟨hnj, hsvd, hlenA, hlenS, hlenB, hcolsA, hcolsB⟩ := hv
      obtain ⟨hfac, hgA, hgB, hsort, hpos⟩ := hsvd
      show SigmaOk (increment cfg (some f) s)
      rw [increment_some]
      cases hb : isRedundant cfg s.nm
      · rw [if_neg (by simp [hb])]
        exact ⟨hsort, hpos⟩
      · rw [if_pos (by simp [hb])]
        refine ⟨?_, ?_⟩
        · exact List.Pairwise.sublist (List.take_sublist _ _) hsort
        · intro x hx
          simp only [addRedundantIncrement] at hx
          exact hpos x (List.mem_of_mem_take hx)

/-- Every prefix of a valid trace is a valid trace. -/
theorem validTrace_take {K : Type} [Field K] [LinearOrder K] (cfg : Config K) :
    ∀ (ss : List (Sample K)) (st : Option (Fact K)) (n : Nat),
      ValidTrace cfg st ss → ValidTrace cfg st (ss.take n) := by
  intro ss
  induction ss with
  | nil =>
      intro st n h
      simp only [List.take_nil]
      exact h
  | cons s rest ih =>
      intro st n h
      match n with
      | 0 => exact trivial
      | m + 1 => exact ⟨h.1, ih (increment cfg st s) m h.2⟩

/-- Invariant I2 is preserved along any valid run. -/
theorem sigmaOk_run {K : Type} [Field K] [LinearOrder K] (cfg : Config K) :
    ∀ (ss : List (Sample K)) (st : Option (Fact K)),
      SigmaOk st → ValidTrace cfg st ss → SigmaOk (run cfg st ss) := by
  intro ss
  induction ss with
  | nil =>
      intro st hok _
      exact hok
  | cons s rest ih =>
      intro st hok hv
      exact ih (increment cfg st s) (sigmaOk_increment cfg st s hok hv.1) hv.2

/-- Well-formedness of a nonempty factorization: positive rank, a
nonempty right basis whose columns all have the row count of V. -/
def WFact {K : Type} [Field K] (f : Fact K) : Prop :=
  0 < f.Sigma.length ∧ f.V ≠ [] ∧ ∀ c ∈ f.V, c.length = nRows f.V

/-- vaddP of an empty right operand. -/
theorem vaddP_nil_right {K : Type} [Field K] (xs : List K) : vaddP xs [] = xs := by
  cases xs <;> rfl

/-- vaddP of equal-length vectors keeps the length. -/
theorem vaddP_length {K : Type} [Field K] :
    ∀ (xs ys : List K), xs.length = ys.length → (vaddP xs ys).length = xs.length := by
  intro xs
  induction xs with
  | nil =>
      intro ys h
      match ys with
      | [] => rfl
  | cons x xs ih =>
      intro ys h
      match ys with
      | [] => cases h
      | y :: ys =>
          show (vaddP xs ys).length + 1 = xs.length + 1
          rw [ih ys (by simpa using h)]

/-- Folding vaddP over a nonempty family of vectors of one length
yields that length. -/
theorem foldr_vaddP_length {K : Type} [Field K] (m : Nat) :
    ∀ (L : List (List K)), L ≠ [] → (∀ x ∈ L, x.length = m) →
      (L.foldr vaddP []).length = m := by
  intro L
  induction L with
  | nil =>
      intro h _
      exact absurd rfl h
  | cons x rest ih =>
      intro _ hall
      match rest with
      | [] =>
          show (vaddP x []).length = m
          rw [vaddP_nil_right]
          exact hall x (List.mem_cons_self _ _)
      | y :: rest2 =>
          show (vaddP x ((y :: rest2).foldr vaddP [])).length = m
          have h1 : ((y :: rest2).foldr vaddP []).length = m :=
            ih (by simp) (fun z hz => hall z (List.mem_cons_of_mem x hz))
          have h2 : x.length = m := hall x (List.mem_cons_self _ _)
          rw [vaddP_length x _ (by rw [h1, h2])]
          exact h2

/-- Every vector in the scaled-column family has the length of some
matrix column. -/
theorem zipWith_smul_columns {K : Type} [Field K] :
    ∀ (v : List K) (M : List (List K)) (x : List K),
      x ∈ List.zipWith smul v M → ∃ c ∈ M, x.length = c.length := by
  intro v
  induction v with
  | nil =>
      intro M x hx
      simp at hx
  | cons a v ih =>
      intro M x hx
      match M with
      | [] => simp at hx
      | c :: M2 =>
          rw [List.zipWith_cons_cons, List.mem_cons] at hx
          rcases hx with hx | hx
          · refine ⟨c, List.mem_cons_self _ _, ?_⟩
            rw [hx]
            exact List.length_map c _
          · obtain ⟨c2, hc2, he⟩ := ih M2 x hx
            exact ⟨c2, List.mem_cons_of_mem c hc2, he⟩

/-- A matrix-vector product over a nonempty matrix with uniform column
length m and a nonempty coefficient vector has length m. -/
theorem matVec_length {K : Type} [Field K] (m : Nat) (M : List (List K))
    (v : List K) (hM : M ≠ []) (hv : v ≠ [])
    (hall : ∀ c ∈ M, c.length = m) : (matVec M v).length = m := by
  unfold matVec
  apply foldr_vaddP_length
  · match v, M with
    | a :: v2, c :: M2 => simp
    | [], _ => exact absurd rfl hv
    | _ :: _, [] => exact absurd rfl hM
  · intro x hx
    obtain ⟨c, hc, he⟩ := zipWith_smul_columns v M x hx
    rw [he]
    exact hall c hc

/-- Extending the right basis yields uniform columns one row longer. -/
theorem extendV_columns {K : Type} [Field K] (V : List (List K))
    (hcols : ∀ c ∈ V, c.length = nRows V) :
    ∀ c ∈ extendV V, c.length = nRows V + 1 := by
  intro c hc
  unfold extendV at hc
  rw [List.mem_append] at hc
  rcases hc with hc | hc
  · obtain ⟨c2, hc2, he⟩ := List.mem_map.mp hc
    rw [← he, List.length_append, hcols c2 hc2]
    rfl
  · rw [List.mem_singleton] at hc
    rw [hc, List.length_append]
    simp [zeros]

/-- In the redundant branch the extended, mixed right basis has exactly
one row more than before. -/
theorem redundant_V_rows {K : Type} [Field K] (f : Fact K) (B : List (List K))
    (hwf : WFact f) (hlenB : B.length = f.Sigma.length + 1)
    (hcolsB : ∀ c ∈ B, c.length = f.Sigma.length + 1) :
    nRows (matMul (extendV f.V) (B.take f.Sigma.length)) = nRows f.V + 1 := by
  obtain ⟨hr, hVne, hVcols⟩ := hwf
  have htlen : (B.take f.Sigma.length).length = f.Sigma.length := by
    rw [List.length_take, hlenB]
    omega
  match hBt : B.take f.Sigma.length with
  | [] =>
      rw [hBt] at htlen
      exact absurd htlen.symm (Nat.ne_of_gt hr)
  | b0 :: bs =>
      show (matVec (extendV f.V) b0).length = nRows f.V + 1
      apply matVec_length
      · unfold extendV
        simp
      · have hb0B : b0 ∈ B := List.mem_of_mem_take (hBt ▸ List.mem_cons_self _ _)
        have := hcolsB b0 hb0B
        intro hnil
        rw [hnil] at this
        simp at this
      · exact extendV_columns f.V hVcols

/-
Linear-algebra lemmas for the variant-equivalence claim: vaddP is a
commutative monoid operation, matVec is linear, matMul is associative,
bordering is a block product, and the one-hot columns form an identity.
-/

/-- Scaling by zero yields the zero vector. -/
theorem smul_zero_rep {K : Type} [Field K] :
    ∀ xs : List K, smul 0 xs = List.replicate xs.length 0 := by
  intro xs
  induction xs with
  | nil => rfl
  | cons a xs ih =>
      show (0 * a) :: smul 0 xs = 0 :: List.replicate xs.length 0
      rw [ih, zero_mul]

/-- vaddP is commutative. -/
theorem vaddP_comm {K : Type} [Field K] :
    ∀ a b : List K, vaddP a b = vaddP b a := by
  intro a
  induction a with
  | nil =>
      intro b
      cases b <;> rfl
  | cons x a ih =>
      intro b
      match b with
      | [] => rfl
      | y :: b =>
          show (x + y) :: vaddP a b = (y + x) :: vaddP b a
          rw [ih b, add_comm]

/-- vaddP is associative. -/
theorem vaddP_assoc {K : Type} [Field K] :
    ∀ a b c : List K, vaddP (vaddP a b) c = vaddP a (vaddP b c) := by
  intro a
  induction a with
  | nil =>
      intro b c
      rfl
  | cons x a ih =>
      intro b c
      match b with
      | [] => rfl
      | y :: b =>
          match c with
          | [] => rfl
          | z :: c =>
              show (x + y + z) :: vaddP (vaddP a b) c = (x + (y + z)) :: vaddP a (vaddP b c)
              rw [ih b c, add_assoc]

/-- The interchange law of vaddP. -/
theorem vaddP_interchange {K : Type} [Field K] (p q r s : List K) :
    vaddP (vaddP p q) (vaddP r s) = vaddP (vaddP p r) (vaddP q s) := by
  rw [vaddP_assoc, ← vaddP_assoc q r s, vaddP_comm q r, vaddP_assoc r q s,
    ← vaddP_assoc]

/-- Scaling by a sum distributes over vaddP. -/
theorem smul_add_dist {K : Type} [Field K] (x y : K) :
    ∀ v : List K, smul (x + y) v = vaddP (smul x v) (smul y v) := by
  intro v
  induction v with
  | nil => rfl
  | cons a v ih =>
      show ((x + y) * a) :: smul (x + y) v = (x * a + y * a) :: vaddP (smul x v) (smul y v)
      rw [ih, add_mul]

/-- Scaling distributes over vaddP. -/
theorem smul_vaddP {K : Type} [Field K] (c : K) :
    ∀ a b : List K, smul c (vaddP a b) = vaddP (smul c a) (smul c b) := by
  intro a
  induction a with
  | nil =>
      intro b
      rfl
  | cons x a ih =>
      intro b
      match b with
      | [] => rfl
      | y :: b =>
          show (c * (x + y)) :: smul c (vaddP a b) =
            (c * x + c * y) :: vaddP (smul c a) (smul c b)
          rw [ih b, mul_add]

/-- Composed scaling. -/
theorem smul_smul_comp {K : Type} [Field K] (c e : K) :
    ∀ v : List K, smul (c * e) v = smul c (smul e v) := by
  intro v
  induction v with
  | nil => rfl
  | cons a v ih =>
      show (c * e * a) :: smul (c * e) v = (c * (e * a)) :: smul c (smul e v)
      rw [ih, mul_assoc]

/-- Scaling by one is the identity. -/
theorem smul_one_id {K : Type} [Field K] :
    ∀ v : List K, smul 1 v = v := by
  intro v
  induction v with
  | nil => rfl
  | cons a v ih =>
      show (1 * a) :: smul 1 v = a :: v
      rw [ih, one_mul]

/-- Adding the zero vector on the left. -/
theorem vaddP_rep_zero_left {K : Type} [Field K] :
    ∀ v : List K, vaddP (List.replicate v.length 0) v = v := by
  intro v
  induction v with
  | nil => rfl
  | cons a v ih =>
      show (0 + a) :: vaddP (List.replicate v.length 0) v = a :: v
      rw [ih, zero_add]

/-- Adding the zero vector on the right. -/
theorem vaddP_rep_zero_right {K : Type} [Field K] :
    ∀ v : List K, vaddP v (List.replicate v.length 0) = v := by
  intro v
  rw [vaddP_comm]
  exact vaddP_rep_zero_left v

/-- matVec is additive in the coefficient vector. -/
theorem matVec_vaddP {K : Type} [Field K] :
    ∀ (a b : List K) (X : List (List K)),
      matVec X (vaddP a b) = vaddP (matVec X a) (matVec X b) := by
  intro a
  induction a with
  | nil =>
      intro b X
      rfl
  | cons a0 a ih =>
      intro b X
      match b with
      | [] =>
          show matVec X (a0 :: a) = vaddP (matVec X (a0 :: a)) (matVec X [])
          rw [show matVec X ([] : List K) = [] from rfl, vaddP_nil_right]
      | b0 :: b =>
          match X with
          | [] => rfl
          | X0 :: X2 =>
              show vaddP (smul (a0 + b0) X0) (matVec X2 (vaddP a b)) =
                vaddP (vaddP (smul a0 X0) (matVec X2 a)) (vaddP (smul b0 X0) (matVec X2 b))
              rw [ih b X2, smul_add_dist, vaddP_interchange]

/-- matVec is homogeneous in the coefficient vector. -/
theorem matVec_smul {K : Type} [Field K] (c : K) :
    ∀ (v : List K) (X : List (List K)),
      matVec X (smul c v) = smul c (matVec X v) := by
  intro v
  induction v with
  | nil =>
      intro X
      rfl
  | cons v0 v ih =>
      intro X
      match X with
      | [] => rfl
      | X0 :: X2 =>
          show vaddP (smul (c * v0) X0) (matVec X2 (smul c v)) =
            smul c (vaddP (smul v0 X0) (matVec X2 v))
          rw [ih X2, smul_smul_comp, smul_vaddP]

/-- Applying a product matrix is composing the applications. -/
theorem matVec_matMul {K : Type} [Field K] :
    ∀ (z : List K) (Y X : List (List K)),
      matVec (matMul X Y) z = matVec X (matVec Y z) := by
  intro z
  induction z with
  | nil =>
      intro Y X
      rfl
  | cons z0 z ih =>
      intro Y X
      match Y with
      | [] => rfl
      | Y0 :: Y2 =>
          show vaddP (smul z0 (matVec X Y0)) (matVec (matMul X Y2) z) =
            matVec X (vaddP (smul z0 Y0) (matVec Y2 z))
          rw [ih Y2 X, matVec_vaddP, matVec_smul]

/-- matMul is associative. -/
theorem matMul_assoc {K : Type} [Field K] (X Y Z : List (List K)) :
    matMul (matMul X Y) Z = matMul X (matMul Y Z) := by
  show Z.map (matVec (matMul X Y)) = (Z.map (matVec Y)).map (matVec X)
  rw [List.map_map]
  exact List.map_congr_left (fun z _ => matVec_matMul z Y X)

/-- Scaling a family of uniform-length columns by zeros gives zero
vectors. -/
theorem zipWith_smul_zeros {K : Type} [Field K] (d : Nat) :
    ∀ (X : List (List K)) (k : Nat), (∀ c ∈ X, c.length = d) →
      ∀ z ∈ List.zipWith smul (zeros k) X, z = List.replicate d 0 := by
  intro X
  induction X with
  | nil =>
      intro k _ z hz
      simp [zeros] at hz
  | cons c X ih =>
      intro k hcols z hz
      match k with
      | 0 => simp [zeros] at hz
      | m + 1 =>
          rw [show zeros (m + 1) = (0 : K) :: zeros m from rfl,
            List.zipWith_cons_cons, List.mem_cons] at hz
          rcases hz with hz | hz
          · rw [hz, smul_zero_rep, hcols c (List.mem_cons_self _ _)]
          · exact ih m (fun e he => hcols e (List.mem_cons_of_mem c he)) z hz

/-- Folding vaddP over a family of uniform-length vectors does not see
a zero initial vector of that length. -/
theorem foldr_vaddP_rep_zero {K : Type} [Field K] (d : Nat) :
    ∀ zs : List (List K), zs ≠ [] → (∀ z ∈ zs, z.length = d) →
      zs.foldr vaddP (List.replicate d 0) = zs.foldr vaddP [] := by
  intro zs
  induction zs with
  | nil =>
      intro h _
      exact absurd rfl h
  | cons z zs ih =>
      intro _ hall
      match zs with
      | [] =>
          show vaddP z (List.replicate d 0) = vaddP z []
          rw [vaddP_nil_right, ← hall z (List.mem_cons_self _ _)]
          exact vaddP_rep_zero_right z
      | z2 :: zs2 =>
          show vaddP z ((z2 :: zs2).foldr vaddP (List.replicate d 0)) =
            vaddP z ((z2 :: zs2).foldr vaddP [])
          rw [ih (by simp) (fun e he => hall e (List.mem_cons_of_mem z he))]

/-- Folding vaddP over zero vectors of the initial length returns the
initial vector. -/
theorem foldr_vaddP_zeros_init {K : Type} [Field K] (d : Nat) (c : List K)
    (hc : c.length = d) :
    ∀ zs : List (List K), (∀ z ∈ zs, z = List.replicate d 0) →
      zs.foldr vaddP c = c := by
  intro zs
  induction zs with
  | nil =>
      intro _
      rfl
  | cons z zs ih =>
      intro hall
      show vaddP z (zs.foldr vaddP c) = c
      rw [ih (fun e he => hall e (List.mem_cons_of_mem z he)),
        hall z (List.mem_cons_self _ _), ← hc]
      exact vaddP_rep_zero_left c

/-- Applying the matrix bordered by one extra column to a coefficient
vector ending in zero ignores the extra column. -/
theorem matVec_snoc_zero {K : Type} [Field K] (d : Nat) (X : List (List K))
    (c lcol : List K) (hXne : X ≠ []) (hlen : lcol.length = X.length)
    (hXcols : ∀ col ∈ X, col.length = d) (hc : c.length = d) :
    matVec (X ++ [c]) (lcol ++ [0]) = matVec X lcol := by
  unfold matVec
  rw [List.zipWith_append _ _ _ _ _ hlen, List.foldr_append]
  have h1 : List.foldr vaddP [] (List.zipWith smul [(0 : K)] [c]) =
      List.replicate d 0 := by
    show vaddP (smul 0 c) [] = _
    rw [vaddP_nil_right, smul_zero_rep, hc]
  rw [h1]
  apply foldr_vaddP_rep_zero
  · match lcol, X, hlen with
    | l0 :: l2, X0 :: X2, _ => simp
    | [], [], _ => exact absurd rfl hXne
  · intro z hz
    obtain ⟨col, hcol, he⟩ := zipWith_smul_columns lcol X z hz
    rw [he]
    exact hXcols col hcol

/-- Applying the matrix bordered by one extra column to the last
standard basis vector extracts the extra column. -/
theorem matVec_snoc_unit {K : Type} [Field K] (d : Nat) (X : List (List K))
    (c : List K) (hXcols : ∀ col ∈ X, col.length = d) (hc : c.length = d) :
    matVec (X ++ [c]) (zeros X.length ++ [1]) = c := by
  unfold matVec
  rw [List.zipWith_append _ _ _ _ _ (by simp [zeros]), List.foldr_append]
  have h1 : List.foldr vaddP [] (List.zipWith smul [(1 : K)] [c]) = c := by
    show vaddP (smul 1 c) [] = c
    rw [vaddP_nil_right, smul_one_id]
  rw [h1]
  exact foldr_vaddP_zeros_init d c hc _ (zipWith_smul_zeros d X X.length hXcols)

/-- Bordering is a block product: multiplying the matrix extended by a
column c with the bordered matrix [[L, 0], [0, 1]] appends c to the
product with L. -/
theorem matMul_extend_block {K : Type} [Field K] (d : Nat) (X L : List (List K))
    (c : List K) (hXne : X ≠ []) (hLne : L ≠ [])
    (hXcols : ∀ col ∈ X, col.length = d) (hc : c.length = d)
    (hLcols : ∀ l ∈ L, l.length = X.length) :
    matMul (X ++ [c]) (extendV L) = matMul X L ++ [c] := by
  have hnr : nRows L = X.length := by
    match L, hLne with
    | l0 :: L2, _ => exact hLcols l0 (List.mem_cons_self _ _)
  unfold matMul extendV
  rw [List.map_append, List.map_map]
  congr 1
  · exact List.map_congr_left (fun l hl =>
      matVec_snoc_zero d X c l hXne (hLcols l hl) hXcols hc)
  · show [matVec (X ++ [c]) (zeros (nRows L) ++ [1])] = [c]
    rw [hnr, matVec_snoc_unit d X c hXcols hc]

/-- Folding vaddP over a nonempty family of zero vectors of one length
gives that zero vector. -/
theorem foldr_vaddP_all_zeros {K : Type} [Field K] (d : Nat) :
    ∀ zs : List (List K), zs ≠ [] → (∀ z ∈ zs, z = List.replicate d 0) →
      zs.foldr vaddP [] = List.replicate d 0 := by
  intro zs
  induction zs with
  | nil =>
      intro h _
      exact absurd rfl h
  | cons z zs ih =>
      intro _ hall
      match zs with
      | [] =>
          show vaddP z [] = List.replicate d 0
          rw [vaddP_nil_right]
          exact hall z (List.mem_cons_self _ _)
      | z2 :: zs2 =>
          show vaddP z ((z2 :: zs2).foldr vaddP []) = List.replicate d 0
          rw [ih (by simp) (fun e he => hall e (List.mem_cons_of_mem z he)),
            hall z (List.mem_cons_self _ _)]
          have h2 : (List.replicate d (0 : K)).length = d := List.length_replicate d 0
          calc vaddP (List.replicate d (0 : K)) (List.replicate d 0)
              = vaddP (List.replicate (List.replicate d (0 : K)).length 0)
                  (List.replicate d 0) := by rw [h2]
            _ = List.replicate d 0 := vaddP_rep_zero_left _

/-- Applying a matrix of uniform column lengths to a one-hot vector
extracts the corresponding column. -/
theorem matVec_oneHot {K : Type} [Field K] (d : Nat) :
    ∀ (X : List (List K)) (i : Nat), i < X.length →
      (∀ col ∈ X, col.length = d) →
      matVec X (oneHot X.length i 1) = X.getD i [] := by
  intro X
  induction X with
  | nil =>
      intro i hi _
      simp at hi
  | cons X0 X2 ih =>
      intro i hi hcols
      have hd0 : X0.length = d := hcols X0 (List.mem_cons_self _ _)
      match i with
      | 0 =>
          have h1 : oneHot (X0 :: X2).length 0 (1 : K) = 1 :: zeros X2.length := by
            simp [oneHot, zeros]
          rw [h1]
          show vaddP (smul 1 X0)
            (List.foldr vaddP [] (List.zipWith smul (zeros X2.length) X2)) = X0
          rw [smul_one_id]
          match X2 with
          | [] =>
              show vaddP X0 [] = X0
              exact vaddP_nil_right X0
          | X1 :: X3 =>
              rw [foldr_vaddP_all_zeros d _
                (by simp [zeros])
                (zipWith_smul_zeros d (X1 :: X3) (X1 :: X3).length
                  (fun e he => hcols e (List.mem_cons_of_mem X0 he)))]
              rw [← hd0]
              exact vaddP_rep_zero_right X0
      | j + 1 =>
          have hj : j < X2.length := by simpa using hi
          have h1 : oneHot (X0 :: X2).length (j + 1) (1 : K) =
              0 :: oneHot X2.length j 1 := by
            simp [oneHot, zeros, List.replicate_succ, Nat.succ_sub_succ]
          rw [h1]
          show vaddP (smul 0 X0) (matVec X2 (oneHot X2.length j 1)) =
            (X0 :: X2).getD (j + 1) []
          rw [smul_zero_rep, hd0,
            ih j hj (fun e he => hcols e (List.mem_cons_of_mem X0 he))]
          show vaddP (List.replicate d 0) (X2.getD j []) = X2.getD j []
          have h2 : (X2.getD j []).length = d := by
            rw [List.getD_eq_getElem X2 [] hj]
            exact hcols _ (List.mem_cons_of_mem X0 (X2.getElem_mem hj))
          rw [← h2]
          exact vaddP_rep_zero_left _

/-- Mapping position lookup over the index range rebuilds the list. -/
theorem range_map_getD {K : Type} [Field K] :
    ∀ X : List (List K), (List.range X.length).map (fun i => X.getD i []) = X := by
  intro X
  induction X with
  | nil => rfl
  | cons X0 X2 ih =>
      rw [show (X0 :: X2).length = X2.length + 1 from rfl, List.range_succ_eq_map,
        List.map_cons, List.map_map]
      show X0 :: (List.range X2.length).map
        ((fun i => (X0 :: X2).getD i []) ∘ Nat.succ) = X0 :: X2
      have h1 : (List.range X2.length).map
          ((fun i => (X0 :: X2).getD i []) ∘ Nat.succ) =
          (List.range X2.length).map (fun i => X2.getD i []) :=
        List.map_congr_left (fun i _ => rfl)
      rw [h1, ih]

/-- Multiplying a matrix of uniform column lengths by the identity of
its column count gives the matrix back. -/
theorem matMul_idMat {K : Type} [Field K] (d : Nat) :
    ∀ X : List (List K), (∀ col ∈ X, col.length = d) →
      matMul X (idMat X.length) = X := by
  intro X hcols
  have h0 : matMul X (idMat X.length) =
      (List.range X.length).map (fun i => matVec X (oneHot X.length i 1)) := by
    unfold matMul idMat
    rw [List.map_map]
    rfl
  rw [h0, List.map_congr_left
    (fun i hi => matVec_oneHot d X i (List.mem_range.mp hi) hcols)]
  exact range_map_getD X

/-- Reduction of the fast take_sample on an empty factorization. -/
theorem incrementFast_none {K : Type} [Field K] [LinearOrder K] (cfg : Config K)
    (s : Sample K) : incrementFast cfg none s = some (buildInitialSVDFast s) := rfl

/-- Reduction of the fast take_sample on a nonempty factorization. -/
theorem incrementFast_some {K : Type} [Field K] [LinearOrder K] (cfg : Config K)
    (ff : FactF K) (s : Sample K) :
    incrementFast cfg (some ff) s =
      if isRedundant cfg s.nm then some (addRedundantIncrementFast cfg ff s.nm)
      else some (addNewIncrementFast ff s.u s.nm) := rfl

/-- The length of a componentwise difference. -/
theorem vsub_length {K : Type} [Field K] (a b : List K) :
    (vsub a b).length = min a.length b.length := by
  unfold vsub
  exact List.length_zipWith _ _ _

/-- The corrected residual of a snapshot of the right dimension has
that dimension. -/
theorem gsResid_length {K : Type} [Field K] (f : Fact K) (u : List K)
    (hUne : f.U ≠ []) (hUcols : ∀ c ∈ f.U, c.length = nRows f.U)
    (hu : u.length = nRows f.U) : (gsResid f u).length = nRows f.U := by
  have hproj : projCoeffs f u ≠ [] := by
    unfold projCoeffs matTvec
    simpa using hUne
  have h1 : (matVec f.U (projCoeffs f u)).length = nRows f.U :=
    matVec_length _ _ _ hUne hproj hUcols
  have h2 : (resid0 f u).length = nRows f.U := by
    unfold resid0
    rw [vsub_length, h1, hu]
    exact min_self _
  have hdelta : gsDelta f u ≠ [] := by
    unfold gsDelta matTvec
    simpa using hUne
  have h3 : (matVec f.U (gsDelta f u)).length = nRows f.U :=
    matVec_length _ _ _ hUne hdelta hUcols
  unfold gsResid
  rw [vsub_length, h2, h3]
  exact min_self _

/-- The initial paths of the two variants denote the same
factorization. -/
theorem simF_init {K : Type} [Field K] (s : Sample K) :
    SimF (buildInitialSVDFast s) (buildInitialSVD s) := by
  refine ⟨?_, rfl, rfl⟩
  show [matVec [s.u.map (fun x => x / s.nm.nrm)] [(1 : K)]] =
    [s.u.map (fun x => x / s.nm.nrm)]
  have h1 : matVec [s.u.map (fun x => x / s.nm.nrm)] [(1 : K)] =
      s.u.map (fun x => x / s.nm.nrm) := by
    show vaddP (smul 1 (s.u.map (fun x => x / s.nm.nrm))) [] = _
    rw [vaddP_nil_right, smul_one_id]
  rw [h1]

/-- The new branches of the two variants preserve the simulation: the
deferred rotation of the fast variant denotes exactly the rotated
naive basis. -/
theorem simF_new {K : Type} [Field K] (ff : FactF K) (fn : Fact K)
    (s : Sample K) (hsim : SimF ff fn) (hside : StepSide ff s) :
    SimF (addNewIncrementFast ff s.u s.nm) (addNewIncrement fn s.u s.nm) := by
  obtain ⟨hUL, hSig, hV⟩ := hsim
  obtain ⟨hUne, hUcols, hLne, hLcols, hu⟩ := hside
  have heff : effFact ff = fn := by
    cases fn
    simp only [effFact] at hUL hSig hV ⊢
    rw [hUL, hSig, hV]
  have hnUne : fn.U ≠ [] := by
    rw [← hUL]
    show ff.L.map (matVec ff.U) ≠ []
    simpa using hLne
  have hlscol : ∀ l ∈ ff.L, l ≠ [] := by
    intro l hl hnil
    have := hLcols l hl
    rw [hnil] at this
    exact hUne (List.length_eq_zero.mp this.symm)
  have hnUcols : ∀ c ∈ fn.U, c.length = nRows ff.U := by
    intro c hc
    rw [← hUL] at hc
    obtain ⟨l, hl, he⟩ := List.mem_map.mp hc
    rw [← he]
    exact matVec_length _ _ _ hUne (hlscol l hl) hUcols
  have hnRows : nRows fn.U = nRows ff.U := by
    match hL2 : ff.L, hLne with
    | l0 :: L2, _ =>
        have h0 : fn.U = matVec ff.U l0 :: L2.map (matVec ff.U) := by
          rw [← hUL, hL2]
          rfl
        rw [h0]
        show (matVec ff.U l0).length = nRows ff.U
        exact matVec_length _ _ _ hUne (hlscol l0 (by rw [hL2]; exact List.mem_cons_self _ _)) hUcols
  have hjc : ((gsResid fn s.u).map (fun x => x / s.nm.nj)).length = nRows ff.U := by
    rw [List.length_map]
    rw [← hnRows]
    apply gsResid_length fn s.u hnUne
    · intro c hc
      rw [hnRows]
      exact hnUcols c hc
    · rw [hnRows]
      exact hu
  refine ⟨?_, rfl, ?_⟩
  · show matMul (ff.U ++ [(gsResid (effFact ff) s.u).map (fun x => x / s.nm.nj)])
      (matMul (extendV ff.L) s.nm.A) =
      matMul (fn.U ++ [(gsResid fn s.u).map (fun x => x / s.nm.nj)]) s.nm.A
    rw [heff, ← matMul_assoc,
      matMul_extend_block (nRows ff.U) ff.U ff.L _ hUne hLne hUcols hjc hLcols, hUL]
  · show matMul (extendV ff.V) s.nm.B = matMul (extendV fn.V) s.nm.B
    rw [hV]

/-- A paired run of the two variants preserves the simulation when
every absorption is classified new. -/
theorem equivTrace_preserves {K : Type} [Field K] [LinearOrder K] (cfg : Config K) :
    ∀ (ss : List (Sample K)) (stf : Option (FactF K)) (stn : Option (Fact K)),
      OSimF stf stn → (∀ s ∈ ss, isRedundant cfg s.nm = false) →
      EquivTrace cfg stf stn ss →
      OSimF (runFast cfg stf ss) (run cfg stn ss) := by
  intro ss
  induction ss with
  | nil =>
      intro stf stn hsim _ _
      exact hsim
  | cons s rest ih =>
      intro stf stn hsim hred htr
      have hstep : OSimF (incrementFast cfg stf s) (increment cfg stn s) := by
        match stf, stn, hsim with
        | none, none, _ =>
            rw [incrementFast_none, increment_none]
            exact simF_init s
        | some ff, some fn, hsim =>
            have hside : StepSide ff s := htr.1
            have hredf : isRedundant cfg s.nm = false :=
              hred s (List.mem_cons_self _ _)
            rw [incrementFast_some, increment_some,
              if_neg (by rw [hredf]; exact Bool.false_ne_true),
              if_neg (by rw [hredf]; exact Bool.false_ne_true)]
            exact simF_new ff fn s hsim hside
      exact ih (incrementFast cfg stf s) (increment cfg stn s) hstep
        (fun e he => hred e (List.mem_cons_of_mem s he)) htr.2

/-
Claim theorems.
-/

/-- C1: on a nonempty factorization the snapshot is classified
redundant exactly when the residual norm after the projection and
Gram-Schmidt correction pass is strictly below epsilon; in the
redundant branch the left basis U is unchanged, the rank does not
grow, and one more sample row of V is recorded unless skip_redundant
elides the V-extension. -/
theorem redundancy_classification {K : Type} [Field K] [LinearOrder K]
    (cfg : Config K) (f : Fact K) (s : Sample K) (hwf : WFact f)
    (hv : ValidStep f s) :
    (isRedundant cfg s.nm = true ↔ s.nm.nj < cfg.eps) ∧
    (s.nm.nj < cfg.eps →
      ∃ f2, increment cfg (some f) s = some f2 ∧ f2.U = f.U ∧
        f2.Sigma.length = f.Sigma.length ∧
        nRows f2.V = nRows f.V + (if cfg.skipRedundant then 0 else 1)) := by
  obtain ⟨hnj, hsvd, hlenA, hlenS, hlenB, hcolsA, hcolsB⟩ := hv
  constructor
  · unfold isRedundant
    exact decide_eq_true_iff
  · intro hlt
    have hred : isRedundant cfg s.nm = true := decide_eq_true hlt
    refine ⟨addRedundantIncrement cfg f s.nm, ?_, rfl, ?_, ?_⟩
    · rw [increment_some, if_pos hred]
    · show (s.nm.S.take f.Sigma.length).length = f.Sigma.length
      rw [List.length_take, hlenS]
      omega
    · show nRows (if cfg.skipRedundant then f.V
          else matMul (extendV f.V) (s.nm.B.take f.Sigma.length)) =
        nRows f.V + (if cfg.skipRedundant then 0 else 1)
      cases hsk : cfg.skipRedundant
      · simp only [Bool.false_eq_true, if_false]
        exact redundant_V_rows f s.nm.B hwf hlenB hcolsB
      · simp

/-- Concrete configuration for the redundancy witness. -/
def cfgW1 : Config ℚ := ⟨1/2, false⟩

/-- Concrete rank-one factorization for the redundancy witness. -/
def fW1 : Fact ℚ := ⟨[[1, 0]], [1], [[1]]⟩

/-- The zero snapshot with residual norm 0 and a valid SVD triple of
its augmented matrix, classified redundant. -/
def sW0 : Sample ℚ := ⟨[0, 0], ⟨0, 0, [[1, 0], [0, 1]], [1, 0], [[1, 0], [0, 1]]⟩⟩

/-- Witness for C1 at a concrete redundant call: the classification
agrees with the residual-norm test, U is unchanged, the rank stays 1,
and V gains one sample row. -/
theorem redundancy_classification_witness :
    (isRedundant cfgW1 sW0.nm = true ↔ sW0.nm.nj < cfgW1.eps) ∧
    (∃ f2, increment cfgW1 (some fW1) sW0 = some f2 ∧ f2.U = fW1.U ∧
      f2.Sigma.length = fW1.Sigma.length ∧
      nRows f2.V = nRows fW1.V + (if cfgW1.skipRedundant then 0 else 1)) := by
  have hwf : WFact fW1 := by
    norm_num [WFact, fW1, nRows]
  have hv : ValidStep fW1 sW0 := by
    norm_num [ValidStep, ValidNj, ValidSVD, sW0, fW1, theQ, constructQ, gsResid,
      resid0, projCoeffs, gsDelta, gsCoeffs, matTvec, matVec, matMul, dot, smul,
      vsub, vadd, vaddP, sumSq, oneHot, diagM, idMat, gram, zeros, List.Sorted,
      List.range_succ]
  exact ⟨(redundancy_classification cfgW1 fW1 sW0 hwf hv).1,
    (redundancy_classification cfgW1 fW1 sW0 hwf hv).2
      (by norm_num [sW0, cfgW1])⟩

/-- C2: after every take_sample of any accepted snapshot sequence the
stored singular values are nonnegative and arranged in non-increasing
order (invariant I2). -/
theorem sigma_sorted_nonneg {K : Type} [Field K] [LinearOrder K] (cfg : Config K)
    (ss : List (Sample K)) (hv : ValidTrace cfg none ss) :
    ∀ n : Nat, SigmaOk (run cfg none (ss.take n)) := by
  intro n
  exact sigmaOk_run cfg (ss.take n) none trivial (validTrace_take cfg ss none n hv)

/-- Dot product of a vector divided componentwise by n with itself. -/
theorem dot_map_div_self {K : Type} [Field K] (n : K) :
    ∀ u : List K,
      dot (u.map (fun x => x / n)) (u.map (fun x => x / n)) = dot u u / (n * n) := by
  intro u
  induction u with
  | nil =>
      show (0 : K) = 0 / (n * n)
      rw [zero_div]
  | cons a u ih =>
      show a / n * (a / n) + dot (u.map (fun x => x / n)) (u.map (fun x => x / n)) =
        (a * a + dot u u) / (n * n)
      rw [ih, div_mul_div_comm, div_add_div_same]

/-- C3: a take_sample on the empty factorization takes the initial
path: the result has rank 1, U is the snapshot divided by its global
norm (so the normalized column has unit sum of squares), Sigma is the
one-element list of that norm, and V is [[1]]; in particular for
u = [1, 2, 2, 0] the result has Sigma = [3] and
U = [1/3, 2/3, 2/3, 0]. -/
theorem initial_svd :
    (∀ {K : Type} [Field K] [LinearOrder K] (cfg : Config K) (s : Sample K),
      ValidInit s →
        ∃ f, increment cfg none s = some f ∧
          f.Sigma = [s.nm.nrm] ∧ f.Sigma.length = 1 ∧
          f.U = [s.u.map (fun x => x / s.nm.nrm)] ∧ f.V = [[1]] ∧
          sumSq (f.U.headD []) = 1) ∧
    (∃ f, increment (⟨1/1000000, false⟩ : Config ℚ) none
        ⟨[1, 2, 2, 0], ⟨3, 0, [], [], []⟩⟩ = some f ∧
      f.Sigma = [3] ∧ f.U = [[1/3, 2/3, 2/3, 0]] ∧ f.V = [[1]]) := by
  constructor
  · intro K _ _ cfg s hv
    refine ⟨buildInitialSVD s, rfl, rfl, rfl, rfl, rfl, ?_⟩
    show dot (s.u.map (fun x => x / s.nm.nrm)) (s.u.map (fun x => x / s.nm.nrm)) = 1
    rw [dot_map_div_self]
    have h1 : dot s.u s.u = s.nm.nrm * s.nm.nrm := hv.1.symm
    rw [h1]
    exact div_self (mul_ne_zero hv.2.2 hv.2.2)
  · refine ⟨_, rfl, ?_, ?_, rfl⟩ <;>
      norm_num [increment, buildInitialSVD]

/-- Witness for C3: the general initial-path statement applied at the
concrete snapshot [1, 2, 2, 0] with its norm 3. -/
theorem initial_svd_witness :
    ∃ f, increment (⟨1/1000000, false⟩ : Config ℚ) none
        ⟨[1, 2, 2, 0], ⟨3, 0, [], [], []⟩⟩ = some f ∧
      f.Sigma = [(3 : ℚ)] ∧ f.Sigma.length = 1 ∧
      f.U = [[1, 2, 2, 0].map (fun x => x / (3 : ℚ))] ∧ f.V = [[1]] ∧
      sumSq (f.U.headD []) = 1 :=
  initial_svd.1 (⟨1/1000000, false⟩ : Config ℚ)
    ⟨[1, 2, 2, 0], ⟨3, 0, [], [], []⟩⟩
    (by norm_num [ValidInit, sumSq, dot])

/-- C4: the naive variant and the fast-update variant are equivalent
implementations of one contract.  On an identical snapshot stream and
configuration: the initial paths denote the same factorization; the
new branch preserves the simulation exactly, so along any stream of
new absorptions the fast variant's spatial basis U times L equals the
naive basis and the singular values are equal (exactly, hence within
any machine-epsilon multiple); in the redundant branch the singular
values and the right basis again agree exactly, and the two spatial
bases differ only by the small mixer A_top (the leading block of A):
the fast basis is the naive basis times A_top, and whenever A_top has
a right inverse the naive basis is recovered from the fast one, so
the two bases span the same subspace. -/
theorem variant_equivalence :
    (∀ {K : Type} [Field K] (s : Sample K),
      SimF (buildInitialSVDFast s) (buildInitialSVD s)) ∧
    (∀ {K : Type} [Field K] (ff : FactF K) (fn : Fact K) (s : Sample K),
      SimF ff fn → StepSide ff s →
        SimF (addNewIncrementFast ff s.u s.nm) (addNewIncrement fn s.u s.nm)) ∧
    (∀ {K : Type} [Field K] (cfg : Config K) (ff : FactF K) (fn : Fact K)
      (nm : Numerics K), SimF ff fn →
        (addRedundantIncrementFast cfg ff nm).Sigma =
          (addRedundantIncrement cfg fn nm).Sigma ∧
        (addRedundantIncrementFast cfg ff nm).V =
          (addRedundantIncrement cfg fn nm).V ∧
        matMul (addRedundantIncrementFast cfg ff nm).U
            (addRedundantIncrementFast cfg ff nm).L =
          matMul (addRedundantIncrement cfg fn nm).U
            (takeTop fn.Sigma.length nm.A) ∧
        (∀ N, matMul (takeTop fn.Sigma.length nm.A) N = idMat fn.Sigma.length →
          (∀ col ∈ fn.U, col.length = nRows fn.U) →
          fn.U.length = fn.Sigma.length →
          matMul (matMul (addRedundantIncrementFast cfg ff nm).U
            (addRedundantIncrementFast cfg ff nm).L) N =
            (addRedundantIncrement cfg fn nm).U)) ∧
    (∀ {K : Type} [Field K] [LinearOrder K] (cfg : Config K)
      (ss : List (Sample K)),
      (∀ s ∈ ss, isRedundant cfg s.nm = false) →
      EquivTrace cfg none none ss →
      OSimF (runFast cfg none ss) (run cfg none ss)) := by
  refine ⟨fun s => simF_init s, fun ff fn s h1 h2 => simF_new ff fn s h1 h2, ?_,
    fun cfg ss h1 h2 => equivTrace_preserves cfg ss none none trivial h1 h2⟩
  intro K _ cfg ff fn nm hsim
  obtain ⟨hUL, hSig, hV⟩ := hsim
  have hU2 : matMul (addRedundantIncrementFast cfg ff nm).U
      (addRedundantIncrementFast cfg ff nm).L =
      matMul (addRedundantIncrement cfg fn nm).U (takeTop fn.Sigma.length nm.A) := by
    show matMul ff.U (matMul ff.L (takeTop ff.Sigma.length nm.A)) =
      matMul fn.U (takeTop fn.Sigma.length nm.A)
    rw [← matMul_assoc, hUL, hSig]
  refine ⟨?_, ?_, hU2, ?_⟩
  · show nm.S.take ff.Sigma.length = nm.S.take fn.Sigma.length
    rw [hSig]
  · show (if cfg.skipRedundant then ff.V
        else matMul (extendV ff.V) (nm.B.take ff.Sigma.length)) =
      (if cfg.skipRedundant then fn.V
        else matMul (extendV fn.V) (nm.B.take fn.Sigma.length))
    rw [hSig, hV]
  · intro N hN hcols hlen
    rw [hU2, matMul_assoc, hN, ← hlen]
    exact matMul_idMat (nRows fn.U) fn.U hcols

/-- Configuration for the variant-equivalence witness trace. -/
def cfgV : Config ℚ := ⟨1/100, false⟩

/-- First sample of the variant-equivalence witness trace: e1 with its
norm 1 and a residual norm of 1, classified new. -/
def sV1 : Sample ℚ := ⟨[1, 0], ⟨1, 1, [], [], []⟩⟩

/-- Second sample of the variant-equivalence witness trace: e2 with
residual norm 1 and the identity SVD triple, classified new. -/
def sV2 : Sample ℚ := ⟨[0, 1], ⟨1, 1, [[1, 0], [0, 1]], [1, 1], [[1, 0], [0, 1]]⟩⟩

/-- Witness for C4: the paired two-snapshot run of the two variants
ends in simulation, and at a concrete redundant step the naive basis
is recovered from the fast one by the inverse of the leading block. -/
theorem variant_equivalence_witness :
    OSimF (runFast cfgV none [sV1, sV2]) (run cfgV none [sV1, sV2]) ∧
    matMul (matMul (addRedundantIncrementFast cfgW1 ⟨[[1, 0]], [[1]], [1], [[1]]⟩ sW0.nm).U
        (addRedundantIncrementFast cfgW1 ⟨[[1, 0]], [[1]], [1], [[1]]⟩ sW0.nm).L) [[1]] =
      (addRedundantIncrement cfgW1 fW1 sW0.nm).U :=
  ⟨variant_equivalence.2.2.2 cfgV [sV1, sV2]
    (by
      intro s hs
      rcases List.mem_cons.mp hs with rfl | hs2
      · norm_num [isRedundant, sV1, cfgV]
      · rcases List.mem_cons.mp hs2 with rfl | hs3
        · norm_num [isRedundant, sV2, cfgV]
        · simp at hs3)
    (by
      refine ⟨trivial, ?_, trivial⟩
      show StepSide (buildInitialSVDFast sV1) sV2
      norm_num [StepSide, buildInitialSVDFast, nRows, sV1, sV2]),
   (variant_equivalence.2.2.1 cfgW1 ⟨[[1, 0]], [[1]], [1], [[1]]⟩ fW1 sW0.nm
      (by norm_num [SimF, matMul, matVec, smul, vaddP, fW1])).2.2.2 [[1]]
    (by norm_num [takeTop, matMul, matVec, smul, vaddP, idMat, oneHot, zeros,
      sW0, fW1, List.range_succ])
    (by norm_num [fW1, nRows])
    (by norm_num [fW1])⟩

/-- Dot product of the normalized vector with the vector itself. -/
theorem dot_map_div_left {K : Type} [Field K] (n : K) :
    ∀ u : List K, dot (u.map (fun x => x / n)) u = dot u u / n := by
  intro u
  induction u with
  | nil =>
      show (0 : K) = 0 / n
      rw [zero_div]
  | cons a u ih =>
      show a / n * a + dot (u.map (fun x => x / n)) u = (a * a + dot u u) / n
      rw [ih, div_mul_eq_mul_div, div_add_div_same]

/-- Scaling the normalized vector back by the norm recovers the vector. -/
theorem smul_map_div {K : Type} [Field K] (n : K) (hn : n ≠ 0) :
    ∀ u : List K, smul n (u.map (fun x => x / n)) = u := by
  intro u
  induction u with
  | nil => rfl
  | cons a u ih =>
      show n * (a / n) :: smul n (u.map (fun x => x / n)) = a :: u
      rw [ih, mul_comm, div_mul_cancel₀ a hn]

/-- A vector minus itself is the zero vector. -/
theorem vsub_self_list {K : Type} [Field K] :
    ∀ u : List K, vsub u u = List.replicate u.length 0 := by
  intro u
  induction u with
  | nil => rfl
  | cons a u ih =>
      show (a - a) :: vsub u u = 0 :: List.replicate u.length 0
      rw [ih, sub_self]

/-- Dot product with a zero vector vanishes. -/
theorem dot_replicate_zero_right {K : Type} [Field K] :
    ∀ (xs : List K) (k : Nat), dot xs (List.replicate k 0) = 0 := by
  intro xs
  induction xs with
  | nil =>
      intro k
      rfl
  | cons a xs ih =>
      intro k
      match k with
      | 0 => rfl
      | m + 1 =>
          show a * 0 + dot xs (List.replicate m 0) = 0
          rw [ih m, mul_zero, add_zero]

/-- Absorbing a vector into the rank-one factorization built from that
same vector leaves a residual that is exactly zero, already before the
Gram-Schmidt correction. -/
theorem gsResid_rank1_self {K : Type} [Field K] (u : List K) (n : K)
    (Sig : List K) (V : List (List K)) (hn : n ≠ 0) (hnn : n * n = dot u u) :
    gsResid ⟨[u.map (fun x => x / n)], Sig, V⟩ u = List.replicate u.length 0 := by
  have hcol : dot (u.map (fun x => x / n)) u = n := by
    rw [dot_map_div_left, ← hnn, mul_div_cancel_right₀ n hn]
  have hmv : matVec [u.map (fun x => x / n)] [n] = u := by
    show vaddP (smul n (u.map (fun x => x / n))) [] = u
    rw [vaddP_nil_right, smul_map_div n hn u]
  have hres0 : resid0 ⟨[u.map (fun x => x / n)], Sig, V⟩ u =
      List.replicate u.length 0 := by
    unfold resid0 projCoeffs
    show vsub u (matVec [u.map (fun x => x / n)] [dot (u.map (fun x => x / n)) u]) = _
    rw [hcol, hmv, vsub_self_list]
  have hdelta : gsDelta ⟨[u.map (fun x => x / n)], Sig, V⟩ u = [(0 : K)] := by
    unfold gsDelta matTvec
    rw [hres0]
    show [dot (u.map (fun x => x / n)) (List.replicate u.length 0)] = [(0 : K)]
    rw [dot_replicate_zero_right]
  have hmv0 : matVec [u.map (fun x => x / n)] [(0 : K)] =
      List.replicate u.length 0 := by
    show vaddP (smul 0 (u.map (fun x => x / n))) [] = _
    rw [vaddP_nil_right, smul_zero_rep, List.length_map]
  unfold gsResid
  rw [hres0, hdelta, hmv0, vsub_self_list, List.length_replicate]

/-- C5 (amended): absorbing a snapshot and then absorbing it again
classifies the second absorption as redundant and does not grow the
rank, and the left basis U stays unchanged; Sigma however is replaced
by the leading singular values of the augmented matrix, which for an
exact repeat differ from the previous Sigma (see the counterexample),
so the factorization state is not unchanged. -/
theorem repeat_snapshot_redundant_amended {K : Type} [Field K] [LinearOrder K]
    (cfg : Config K) (s1 s2 : Sample K) (hu : s2.u = s1.u) (hv : ValidInit s1)
    (hnj : ValidNj (buildInitialSVD s1) s2) (heps : 0 < cfg.eps) :
    isRedundant cfg s2.nm = true ∧
    ∃ f2, increment cfg (increment cfg none s1) s2 = some f2 ∧
      f2.U = (buildInitialSVD s1).U ∧
      f2.Sigma.length ≤ 1 ∧
      f2.Sigma = s2.nm.S.take 1 := by
  have hres : gsResid (buildInitialSVD s1) s2.u =
      List.replicate s2.u.length 0 := by
    rw [hu]
    exact gsResid_rank1_self s1.u s1.nm.nrm _ _ hv.2.2 hv.1
  have hzero : s2.nm.nj = 0 := by
    have h1 := hnj.1
    rw [hres] at h1
    have h2 : sumSq (List.replicate s2.u.length (0 : K)) = 0 := by
      show dot _ _ = 0
      exact dot_replicate_zero_right _ _
    rw [h2] at h1
    exact mul_self_eq_zero.mp h1
  have hred : isRedundant cfg s2.nm = true := by
    unfold isRedundant
    rw [hzero]
    exact decide_eq_true heps
  refine ⟨hred, addRedundantIncrement cfg (buildInitialSVD s1) s2.nm, ?_, rfl, ?_, rfl⟩
  · rw [increment_none, increment_some, if_pos hred]
  · show (s2.nm.S.take (buildInitialSVD s1).Sigma.length).length ≤ 1
    rw [List.length_take]
    exact min_le_left _ _

/-- Witness for C5 at a concrete repeat of the snapshot [3, 4]. -/
theorem repeat_snapshot_redundant_amended_witness :
    isRedundant (⟨1, false⟩ : Config ℚ) (⟨[3, 4], ⟨0, 0, [], [], []⟩⟩ : Sample ℚ).nm = true ∧
    ∃ f2, increment (⟨1, false⟩ : Config ℚ)
        (increment (⟨1, false⟩ : Config ℚ) none ⟨[3, 4], ⟨5, 0, [], [], []⟩⟩)
        ⟨[3, 4], ⟨0, 0, [], [], []⟩⟩ = some f2 ∧
      f2.U = (buildInitialSVD (⟨[3, 4], ⟨5, 0, [], [], []⟩⟩ : Sample ℚ)).U ∧
      f2.Sigma.length ≤ 1 ∧
      f2.Sigma = List.take 1 ([] : List ℚ) :=
  repeat_snapshot_redundant_amended (⟨1, false⟩ : Config ℚ)
    ⟨[3, 4], ⟨5, 0, [], [], []⟩⟩ ⟨[3, 4], ⟨0, 0, [], [], []⟩⟩ rfl
    (by norm_num [ValidInit, sumSq, dot])
    (by norm_num [ValidNj, buildInitialSVD, gsResid, resid0, projCoeffs, gsDelta,
      matTvec, matVec, dot, smul, vsub, vaddP, sumSq])
    (by norm_num)

/-- Configuration over the field Q(sqrt 2) for the repeat-snapshot
counterexample: tolerance 1, redundant samples not skipped. -/
def cfgX : Config Qrt2 := ⟨⟨1, 0⟩, false⟩

/-- The repeated snapshot [1, 1, 1, 1] over Q(sqrt 2). -/
def uX : List Qrt2 := [⟨1, 0⟩, ⟨1, 0⟩, ⟨1, 0⟩, ⟨1, 0⟩]

/-- First absorption of the snapshot, with its exact norm 2. -/
def sX1 : Sample Qrt2 := ⟨uX, ⟨⟨2, 0⟩, ⟨0, 0⟩, [], [], []⟩⟩

/-- Left singular vectors of the augmented matrix of the repeat: the
identity. -/
def aX : List (List Qrt2) := [[⟨1, 0⟩, ⟨0, 0⟩], [⟨0, 0⟩, ⟨1, 0⟩]]

/-- Right singular vectors of the augmented matrix of the repeat. -/
def bX : List (List Qrt2) :=
  [[⟨0, 1/2⟩, ⟨0, 1/2⟩], [⟨0, 1/2⟩, ⟨0, -(1/2)⟩]]

/-- Second absorption of the same snapshot: residual norm exactly 0 and
the exact dense SVD of the augmented matrix [[2, 2], [0, 0]], whose
singular values are 2 sqrt 2 and 0. -/
def sX2 : Sample Qrt2 := ⟨uX, ⟨⟨0, 0⟩, ⟨0, 0⟩, aX, [⟨0, 2⟩, ⟨0, 0⟩], bX⟩⟩

/-- Counterexample for C5: on the accepted repeat of the snapshot
[1, 1, 1, 1] (a valid trace whose recorded numerics are the exact
norms and the exact dense SVD over Q(sqrt 2)), the second absorption
is classified redundant and the rank does not grow, yet Sigma changes:
it becomes [2 sqrt 2], not the previous [2].  Absorbing the same
snapshot twice in a row therefore does not leave Sigma unchanged. -/
theorem repeat_snapshot_sigma_changes_cex :
    ValidTrace cfgX none [sX1, sX2] ∧
    isRedundant cfgX sX2.nm = true ∧
    ∃ f1 f2, run cfgX none [sX1] = some f1 ∧
      run cfgX none [sX1, sX2] = some f2 ∧
      f2.U = f1.U ∧ f2.Sigma.length = f1.Sigma.length ∧ f2.Sigma ≠ f1.Sigma := by
  have hred : isRedundant cfgX sX2.nm = true := by
    norm_num [isRedundant, sX2, cfgX, decide_eq_true_eq, Qrt2.lt_mk, Qrt2.le_mk,
      Qrt2.Nneg]
  refine ⟨⟨?_, ?_, trivial⟩, hred,
    buildInitialSVD sX1, addRedundantIncrement cfgX (buildInitialSVD sX1) sX2.nm,
    rfl, ?_, rfl, ?_, ?_⟩
  · norm_num [ValidSample, ValidInit, sX1, uX, sumSq, dot, Qrt2.le_mk, Qrt2.Nneg]
  · show ValidStep (buildInitialSVD sX1) sX2
    norm_num [ValidStep, ValidNj, ValidSVD, sX1, sX2, uX, aX, bX, cfgX,
      buildInitialSVD, theQ, constructQ, gsResid, resid0, projCoeffs, gsDelta,
      gsCoeffs, matTvec, matVec, matMul, dot, smul, vsub, vadd, vaddP, sumSq,
      oneHot, diagM, idMat, gram, zeros, nRows, List.Sorted, List.range_succ,
      div_eq_mul_inv, Qrt2.le_mk, Qrt2.Nneg]
    refine ⟨fun y h1 h2 => Or.inl (by rw [h1, h2]; norm_num), ?_⟩
    rintro x (⟨h1, h2⟩ | ⟨h1, h2⟩) <;> exact Or.inl (by rw [h1, h2]; norm_num)
  · show run cfgX none [sX1, sX2] = _
    rw [show run cfgX none [sX1, sX2] =
      increment cfgX (increment cfgX none sX1) sX2 from rfl]
    rw [increment_none, increment_some, if_pos hred]
  · rfl
  · norm_num [addRedundantIncrement, buildInitialSVD, sX1, sX2, uX]

/-- Concrete configuration for the invariant witness. -/
def cfgW2 : Config ℚ := ⟨1/100, false⟩

/-- First witness sample: the snapshot e1 with its norm 1; the residual
norm and SVD triple are unused on the initial path. -/
def sW1 : Sample ℚ := ⟨[1, 0], ⟨1, 0, [], [], []⟩⟩

/-- Second witness sample: the snapshot e2, residual norm 1, and the
identity SVD triple of the identity augmented matrix. -/
def sW2 : Sample ℚ := ⟨[0, 1], ⟨1, 1, [[1, 0], [0, 1]], [1, 1], [[1, 0], [0, 1]]⟩⟩

/-- Witness for C2 at a concrete two-snapshot accepted sequence. -/
theorem sigma_sorted_nonneg_witness : SigmaOk (run cfgW2 none ([sW1, sW2].take 2)) :=
  sigma_sorted_nonneg cfgW2 [sW1, sW2]
    (by
      refine ⟨?_, ?_, trivial⟩
      · norm_num [ValidSample, ValidInit, sW1, sumSq, dot]
      · norm_num [ValidSample, ValidStep, ValidNj, ValidSVD, increment,
          buildInitialSVD, sW1, sW2, cfgW2, theQ, constructQ, gsResid, resid0,
          projCoeffs, gsDelta, gsCoeffs, matTvec, matVec, matMul, dot, smul,
          vsub, vadd, vaddP, sumSq, oneHot, diagM, idMat, gram, zeros,
          List.Sorted, List.range_succ])
    2

/-- C8: the basis writer produces per-process file names formed by
suffixing the base name with ".%06d" (and "_snapshot.%06d" for
snapshots), the suffix being the zero-padded six-digit rank, and a
basis file contains the spatial basis records and singular value
records, with the temporal basis records present if and only if
updateRightSV is on. -/
theorem basisWriter_file_names_and_records :
    (∀ (genOk : Bool) (base : String) (mpi : Bool) (rk : Nat) (w : BasisWriter),
      mkBasisWriter genOk base mpi rk = some w →
        w.fullFileName = base ++ ("." ++ pad6 (if mpi then rk else 0)) ∧
        w.snapFileName = base ++ ("_snapshot." ++ pad6 (if mpi then rk else 0))) ∧
    (∀ rk : Nat, rk < 1000000 → (pad6 rk).length = 6) ∧
    (∀ upd : Bool, ∃ w : WriteOutcome,
      writeBasis kindBasis upd = some w ∧
        recSpatialRows ∈ w.basisRecords ∧ recSpatialCols ∈ w.basisRecords ∧
        recSpatial ∈ w.basisRecords ∧ recSingularSize ∈ w.basisRecords ∧
        recSingular ∈ w.basisRecords ∧
        (recTemporalRows ∈ w.basisRecords ↔ upd = true) ∧
        (recTemporalCols ∈ w.basisRecords ↔ upd = true) ∧
        (recTemporal ∈ w.basisRecords ↔ upd = true)) := by
  refine ⟨?_, pad6_length_of_lt, ?_⟩
  · intro genOk base mpi rk w h
    unfold mkBasisWriter at h
    split at h
    · cases h
      exact ⟨rfl, rfl⟩
    · cases h
  · intro upd
    cases upd <;> exact ⟨_, rfl, by decide⟩

/-- Witness for C8 at concrete inputs: a constructed writer gets the
padded suffix names, a rank below a million pads to six digits, and a
basis write with updateRightSV off contains the spatial and singular
records. -/
theorem basisWriter_file_names_and_records_witness :
    ((pad6 0).length = 6) ∧
    (∀ w : BasisWriter, mkBasisWriter true ("b") true 0 = some w →
      w.fullFileName = "b" ++ ("." ++ pad6 0) ∧
      w.snapFileName = "b" ++ ("_snapshot." ++ pad6 0)) :=
  ⟨basisWriter_file_names_and_records.2.1 0 (by norm_num),
   fun w h => basisWriter_file_names_and_records.1 true ("b") true 0 w h⟩

/-- C9: writeBasis accepts only the kind strings "basis" and
"snapshot"; any other argument fails its assertion, and for a valid
kind exactly one of the two databases is created, never both. -/
theorem writeBasis_kind_assertion :
    ∀ (kind : String) (upd : Bool),
      ((kind ≠ kindBasis ∧ kind ≠ kindSnapshot) → writeBasis kind upd = none) ∧
      (∀ w, writeBasis kind upd = some w →
        (w.basisCreated = true ↔ kind = kindBasis) ∧
        (w.snapCreated = true ↔ kind = kindSnapshot) ∧
        ¬(w.basisCreated = true ∧ w.snapCreated = true) ∧
        (w.basisCreated = true ∨ w.snapCreated = true)) := by
  intro kind upd
  constructor
  · rintro ⟨h1, h2⟩
    unfold writeBasis
    rw [if_neg]
    rintro (h | h)
    · exact h1 h
    · exact h2 h
  · intro w h
    unfold writeBasis at h
    split at h
    · rename_i hk
      cases h
      refine ⟨by simp, by simp, ?_, ?_⟩
      · rintro ⟨hb, hs⟩
        simp only [beq_iff_eq] at hb hs
        rw [hb] at hs
        exact absurd hs (by decide)
      · rcases hk with hk | hk
        · exact Or.inl (by simp [hk])
        · exact Or.inr (by simp [hk])
    · cases h

/-- Witness for C9 at concrete inputs: the kind "bogus" fails the
assertion, and a "basis" call creates only the basis database. -/
theorem writeBasis_kind_assertion_witness :
    writeBasis ("bogus") false = none ∧
    (∀ w, writeBasis kindBasis false = some w →
      (w.basisCreated = true ↔ kindBasis = kindBasis)) :=
  ⟨(writeBasis_kind_assertion ("bogus") false).1 (by decide),
   fun w h => ((writeBasis_kind_assertion kindBasis false).2 w h).1⟩

/-- C10: when MPI is not initialized at construction the rank defaults
to 0, so the constructed file names do not depend on the passed rank
and always end in ".000000" and "_snapshot.000000". -/
theorem basisWriter_rank_defaults_to_zero :
    ∀ (genOk : Bool) (base : String) (rk : Nat),
      mkBasisWriter genOk base false rk = mkBasisWriter genOk base false 0 ∧
      (∀ w, mkBasisWriter genOk base false rk = some w →
        w.fullFileName = base ++ (".000000") ∧
        w.snapFileName = base ++ ("_snapshot.000000")) := by
  intro genOk base rk
  constructor
  · rfl
  · intro w h
    unfold mkBasisWriter at h
    split at h
    · cases h
      constructor
      · show base ++ basisSuffix 0 = base ++ (".000000")
        rfl
      · show base ++ snapSuffix 0 = base ++ ("_snapshot.000000")
        rfl
    · cases h

/-- Witness for C10 at concrete inputs: with MPI uninitialized and a
nonzero passed rank the names still end in the rank-zero suffixes. -/
theorem basisWriter_rank_defaults_to_zero_witness :
    ∀ w, mkBasisWriter true ("b") false 7 = some w →
      w.fullFileName = "b" ++ (".000000") :=
  fun w h => ((basisWriter_rank_defaults_to_zero true ("b") 7).2 w h).1

/-- C7: constructing with non-positive dim, non-positive redundancy
tolerance or non-positive increments-per-interval aborts, as does an
increment with a null snapshot or a negative time; under the stated
preconditions no abort occurs. -/
theorem precondition_violations_abort :
    (∀ (dim : Int) (eps : ℚ) (skip : Bool) (mx : Int),
      mkIncrementalSVD dim eps skip mx = none ↔ (dim ≤ 0 ∨ eps ≤ 0 ∨ mx ≤ 0)) ∧
    (∀ (u : Option (List ℚ)) (t : ℚ),
      incrementCheck u t = none ↔ (u = none ∨ t < 0)) := by
  constructor
  · intro dim eps skip mx
    unfold mkIncrementalSVD
    by_cases h : 0 < dim ∧ 0 < eps ∧ 0 < mx
    · rw [if_pos h]
      constructor
      · intro hc
        cases hc
      · rintro (hc | hc | hc)
        · exact absurd h.1 (not_lt.mpr hc)
        · exact absurd h.2.1 (not_lt.mpr hc)
        · exact absurd h.2.2 (not_lt.mpr hc)
    · rw [if_neg h]
      simp only [not_and_or, not_lt] at h
      exact iff_of_true rfl h
  · intro u t
    match u with
    | none => exact iff_of_true rfl (Or.inl rfl)
    | some v =>
        show (if 0 ≤ t then some v else none) = none ↔ (some v = none ∨ t < 0)
        by_cases h : 0 ≤ t
        · rw [if_pos h]
          constructor
          · intro hc
            cases hc
          · rintro (hc | hc)
            · cases hc
            · exact absurd h (not_le.mpr hc)
        · rw [if_neg h]
          exact iff_of_true rfl (Or.inr (not_le.mp h))

/-- Witness for C7 at concrete inputs: a zero dim aborts, a negative
time aborts, and a fully valid call does not abort. -/
theorem precondition_violations_abort_witness :
    mkIncrementalSVD 0 1 true 1 = none ∧
    incrementCheck (some [1]) (-1) = none ∧
    ¬ mkIncrementalSVD 4 1 true 3 = none ∧
    ¬ incrementCheck (some [1]) 0 = none :=
  ⟨(precondition_violations_abort.1 0 1 true 1).mpr (Or.inl le_rfl),
   (precondition_violations_abort.2 (some [1]) (-1)).mpr (Or.inr (by norm_num)),
   fun h => by
     rcases (precondition_violations_abort.1 4 1 true 3).mp h with hc | hc | hc <;>
       norm_num at hc,
   fun h => by
     rcases (precondition_violations_abort.2 (some [1]) 0).mp h with hc | hc
     · cases hc
     · norm_num at hc⟩

/-- C6: a new time interval begins on the first take_sample after
construction or once the previous interval holds
max_increments_per_interval snapshots, each rollover appends the start
time to the replicated list, the recorded start times of a
monotonically timed stream are monotone, and feeding 7 snapshots with
max_increments_per_interval = 3 yields three intervals of sizes 3, 3
and 1 with start times at the first, fourth and seventh samples. -/
theorem interval_rollover :
    (∀ (maxIncr : Nat) (st : IState) (t : ℚ),
      ((istep maxIncr st t).starts = st.starts ++ [t] ↔
        (st.cur = 0 ∨ maxIncr ≤ st.cur)) ∧
      ((istep maxIncr st t).starts = st.starts ↔
        ¬(st.cur = 0 ∨ maxIncr ≤ st.cur))) ∧
    (∀ (maxIncr : Nat) (ts : List ℚ), List.Sorted (· < ·) ts →
      List.Sorted (· < ·) (irun maxIncr istInit ts).starts) ∧
    (isizes (irun 3 istInit [0, 1, 2, 3, 4, 5, 6]) = [3, 3, 1] ∧
     (irun 3 istInit [0, 1, 2, 3, 4, 5, 6]).starts = [0, 3, 6]) := by
  refine ⟨?_, ?_, ?_⟩
  · intro maxIncr st t
    by_cases h : st.cur = 0 ∨ maxIncr ≤ st.cur
    · constructor
      · simp [istep, h]
      · constructor
        · intro he
          have := congrArg List.length he
          simp [istep, h] at this
        · intro hn
          exact absurd h hn
    · constructor
      · constructor
        · intro he
          have := congrArg List.length he
          simp [istep, h] at this
        · intro hc
          exact absurd hc h
      · simp [istep, h]
  · intro maxIncr ts hs
    obtain ⟨l, hsub, he⟩ := irun_starts_append maxIncr ts istInit
    rw [he]
    simpa [istInit] using hs.sublist hsub
  · constructor <;> norm_num [irun, istep, isizes, istInit]

/-- Witness for C6 at concrete inputs: the rollover conditions at a
concrete state and monotone start times of a concrete sorted stream. -/
theorem interval_rollover_witness :
    ((istep 3 ⟨3, [], [0]⟩ 5).starts = [0] ++ [5] ↔ ((3 : Nat) = 0 ∨ 3 ≤ 3)) ∧
    List.Sorted (· < ·) (irun 3 istInit [0, 1]).starts :=
  ⟨(interval_rollover.1 3 ⟨3, [], [0]⟩ 5).1,
   interval_rollover.2.1 3 [0, 1] (by norm_num [List.sorted_cons])⟩

end CAROM
